import Mathlib

set_option maxRecDepth 100000
set_option maxHeartbeats 1000000

/-!
Verification of the `mintlify-docs-cleaner` content transformation engine
(`process_docs.py`): a shallow embedding of `process_mdx_content` (the Markup
Stripper) and `clean_frontmatter` (the Frontmatter Normalizer), together with
proofs about the embedded definitions.

Conventions of the embedding:
* Python strings are modelled as `List Char` (wrapped into `String` at the
  statement level).
* Each `re.sub(pattern, repl, content)` call is modelled by an explicit
  left-to-right scanner that reproduces the leftmost, non-overlapping match
  semantics of `re.sub`, including greedy/non-greedy backtracking of the
  concrete patterns used by the source (analysed pattern by pattern below).
* `\s` / `str.strip` whitespace is modelled by the ASCII whitespace class
  `[ \t\n\r\x0b\x0c]`, which coincides with Python on all inputs considered.
* The YAML fragment used by the frontmatter (the "structured-data
  mini-language" of the spec) is modelled by a line-oriented `key: value`
  parser that is deliberately partial: it succeeds only on inputs where its
  result provably coincides with `yaml.safe_load`, and fails (modelling
  `yaml.YAMLError`) otherwise.  `yaml.dump(..., default_flow_style=False,
  allow_unicode=True)` is modelled including its `sort_keys=True` default and
  its scalar-style selection (plain vs single-quoted) for the scalars that can
  actually reach the emitter.
-/

namespace Docs

/-- Python `\s` on ASCII text (also the characters stripped by `str.strip()`). -/
def isPySpace (c : Char) : Bool :=
  c = ' ' || c = '\t' || c = '\n' || c = '\r' || c = '\x0b' || c = '\x0c'

/-- The `components` list of `process_mdx_content`, in source order.  Note the
source contains `'TagFilters' 'Properties'` (a missing comma), which Python
concatenates into the single entry `TagFiltersProperties`; `Tab` is absent. -/
def components : List String :=
  ["Card", "CardGroup", "Tabs", "TabItem", "ResponseField", "ParamField",
   "Expandable", "RequestExample", "ResponseExample", "CodeGroup", "Tip",
   "Info", "Warning", "Note", "Steps", "Step", "Frame", "Check", "CodeBlock",
   "Col", "TagFiltersProperties", "Property", "Accordion", "AccordionGroup",
   "Update", "Snippet"]

def componentsL : List (List Char) := components.map String.data

/-! ### The generic `re.sub(pat, "", s)` scanner

`substGo m n l` scans `l` left to right; at each position it asks the matcher
`m` whether the regex matches at this position (returning the rest of the
string after the match).  On a match the matched text is deleted and scanning
resumes after it (the `re.sub` non-overlapping rule); otherwise the character
is copied.  `n` is fuel; every matcher below consumes at least one character,
so fuel `l.length` is always sufficient. -/

def substGo (m : List Char → Option (List Char)) : Nat → List Char → List Char
  | 0, l => l
  | _ + 1, [] => []
  | n + 1, c :: t =>
    match m (c :: t) with
    | some r => substGo m n r
    | none => c :: substGo m n t

def subst (m : List Char → Option (List Char)) (l : List Char) : List Char :=
  substGo m l.length l

/-- Drop everything up to and including the first occurrence of `pat`
(the semantics of a non-greedy `.*?pat` with `re.DOTALL`); `none` if `pat`
does not occur. -/
def dropThroughInfix (pat : List Char) : List Char → Option (List Char)
  | [] => if pat.isPrefixOf [] then some [] else none
  | c :: t =>
    if pat.isPrefixOf (c :: t) then some ((c :: t).drop pat.length)
    else dropThroughInfix pat t

/-- Matcher for `\{/\*\s*Mintlify.*?\*/\}` (with `re.DOTALL`).  Since
`Mintlify` starts with a non-whitespace character, the greedy `\s*` must
consume exactly the whitespace run, and `.*?` ends at the earliest `*/}`. -/
def tryComment (l : List Char) : Option (List Char) :=
  if ['\x7b', '/', '*'].isPrefixOf l then
    if "Mintlify".data.isPrefixOf ((l.drop 3).dropWhile isPySpace) then
      dropThroughInfix ['*', '/', '\x7d'] (((l.drop 3).dropWhile isPySpace).drop 8)
    else none
  else none

/-- Matcher for `<C[^>]*>.*?</C>` (with `re.DOTALL`): literal `<C`, then the
(unique) run of non-`>` characters followed by `>`, then the earliest
occurrence of `</C>`. -/
def tryPaired (c : List Char) (l : List Char) : Option (List Char) :=
  if ('<' :: c).isPrefixOf l then
    match (l.drop (c.length + 1)).dropWhile (· ≠ '>') with
    | '>' :: r2 => dropThroughInfix ('<' :: '/' :: (c ++ ['>'])) r2
    | _ => none
  else none

/-- Matcher for `<C[^>]*/>`: the run of non-`>` characters after `<C` must be
nonempty and end in `/`, immediately followed by `>`. -/
def trySelfClose (c : List Char) (l : List Char) : Option (List Char) :=
  if ('<' :: c).isPrefixOf l then
    match (l.drop (c.length + 1)).drop
        ((l.drop (c.length + 1)).takeWhile (· ≠ '>')).length with
    | '>' :: r2 =>
      if ((l.drop (c.length + 1)).takeWhile (· ≠ '>')).getLast? = some '/' then
        some r2
      else none
    | _ => none
  else none

/-- Matcher for `<C[^>]*>`. -/
def tryOpen (c : List Char) (l : List Char) : Option (List Char) :=
  if ('<' :: c).isPrefixOf l then
    match (l.drop (c.length + 1)).dropWhile (· ≠ '>') with
    | '>' :: r2 => some r2
    | _ => none
  else none

/-- Matcher for the literal `</C>`. -/
def tryClose (c : List Char) (l : List Char) : Option (List Char) :=
  if ('<' :: '/' :: (c ++ ['>'])).isPrefixOf l then some (l.drop (c.length + 3))
  else none

/-- Pass 1: `re.sub(r'\{/\*\s*Mintlify.*?\*/\}', '', content, flags=re.DOTALL)`. -/
def stripComments (l : List Char) : List Char := subst tryComment l

/-- Pass 2: for each component, `re.sub(f'<{c}[^>]*>.*?</{c}>', '', content, flags=re.DOTALL)`. -/
def stripPaired (l : List Char) : List Char :=
  componentsL.foldl (fun acc c => subst (tryPaired c) acc) l

/-- Pass 3: for each component, `re.sub(f'<{c}[^>]*/>', '', content)`. -/
def stripSelfClosing (l : List Char) : List Char :=
  componentsL.foldl (fun acc c => subst (trySelfClose c) acc) l

/-- Pass 4: for each component, `re.sub(f'<{c}[^>]*>', '', content)` then
`re.sub(f'</{c}>', '', content)`. -/
def stripBare (l : List Char) : List Char :=
  componentsL.foldl (fun acc c => subst (tryClose c) (subst (tryOpen c) acc)) l

/-! ### Whitespace passes

Pass (a): `re.sub(r'\n\s*\n\s*\n', '\n\n', content)`.  At a position holding
`\n`, the pattern matches iff the maximal whitespace run starting there
contains at least 3 newlines; backtracking of the two greedy `\s*` makes the
match extend exactly to the **last** newline of that run, and the whole match
is replaced by two newlines. -/

/-- Index of the last `'\n'` in `l` (meaningful when one exists). -/
def lastNlIdx (l : List Char) : Nat :=
  l.length - 1 - (l.reverse.findIdx (· = '\n'))

def countNl (l : List Char) : Nat := l.countP (· = '\n')

def wsAGo : Nat → List Char → List Char
  | 0, l => l
  | _ + 1, [] => []
  | n + 1, c :: t =>
    if c = '\n' then
      let run := (c :: t).takeWhile isPySpace
      if 3 ≤ countNl run then
        '\n' :: '\n' :: wsAGo n ((c :: t).drop (lastNlIdx run + 1))
      else c :: wsAGo n t
    else c :: wsAGo n t

def wsA (l : List Char) : List Char := wsAGo l.length l

/-- Pass (b): `re.sub(r'^\s+$', '', content, flags=re.MULTILINE)`.  At a
line-start position (`^`), the greedy `\s+` (which may cross newlines) is
shortened until the position after it is the end of the string, or holds a
`'\n'` (a `$` position); the largest such length wins.  `wsBFind l j` searches
lengths `j, j-1, ..., 1`. -/
def wsBFind (l : List Char) : Nat → Option Nat
  | 0 => none
  | j + 1 =>
    if j + 1 = l.length ∨ l.get? (j + 1) = some '\n' then some (j + 1)
    else wsBFind l j

def wsBGo : Nat → Bool → List Char → List Char
  | 0, _, l => l
  | _ + 1, _, [] => []
  | n + 1, atStart, c :: t =>
    if atStart ∧ isPySpace c then
      let run := (c :: t).takeWhile isPySpace
      match wsBFind (c :: t) run.length with
      | some j =>
          wsBGo n (decide ((c :: t).get? (j - 1) = some '\n')) ((c :: t).drop j)
      | none => c :: wsBGo n (c = '\n') t
    else c :: wsBGo n (c = '\n') t

def wsB (l : List Char) : List Char := wsBGo l.length true l

/-- Pass (c): `re.sub(r'\s+\n', '\n', content)`.  At a whitespace position,
the greedy `\s+` (which may itself contain newlines) is shortened until the
next character is `'\n'`; the largest split wins, i.e. the match runs to the
last newline of the whitespace run, provided that newline is not the very
first character.  `wsCFind run k` searches positions `k, k-1, ..., 1` of the
run for a `'\n'`. -/
def wsCFind (run : List Char) : Nat → Option Nat
  | 0 => none
  | k + 1 => if run.get? (k + 1) = some '\n' then some (k + 1) else wsCFind run k

def wsCGo : Nat → List Char → List Char
  | 0, l => l
  | _ + 1, [] => []
  | n + 1, c :: t =>
    if isPySpace c then
      let run := (c :: t).takeWhile isPySpace
      match wsCFind run (run.length - 1) with
      | some k => '\n' :: wsCGo n ((c :: t).drop (k + 1))
      | none => c :: wsCGo n t
    else c :: wsCGo n t

def wsC (l : List Char) : List Char := wsCGo l.length l

/-- `content.strip()`. -/
def stripEnds (l : List Char) : List Char :=
  (((l.dropWhile isPySpace).reverse).dropWhile isPySpace).reverse

/-- The whitespace-normalization part of `process_mdx_content` (the three
`re.sub` calls of "Clean up multiple blank lines and whitespace"). -/
def wsNormalize (l : List Char) : List Char := wsC (wsB (wsA l))

/-- The full `process_mdx_content`, on `List Char`. -/
def processMdxL (l : List Char) : List Char :=
  stripEnds (wsNormalize (stripBare (stripSelfClosing (stripPaired (stripComments l)))))

/-- `DocsMigrator.process_mdx_content`, the Markup Stripper. -/
def process_mdx_content (s : String) : String := ⟨processMdxL s.data⟩

/-- String-level whitespace normalization plus final trim (what remains of the
stripper when every markup pass is the identity). -/
def wsNormalizeStr (s : String) : String := ⟨stripEnds (wsNormalize s.data)⟩

/-! ### The Frontmatter Normalizer (`clean_frontmatter`)

The frontmatter body is parsed by a model of the `yaml.safe_load` fragment
actually exercised: a flat, line-oriented `key: value` mapping with plain,
single-quoted and double-quoted scalars.  The parser is deliberately partial:
any line it cannot analyse with certainty (indentation, flow syntax, YAML 1.1
resolver words and their case variants, floats, leading-zero numerals — which
the YAML 1.1 resolver reads as octal or leaves as strings — escapes inside
quotes, ...) is rejected.  The failure value conservatively collapses every
body outside this fragment, including bodies `safe_load` would accept (as a
mapping with values the model rejects, or as a non-mapping scalar, where the
real function's behaviour differs); every theorem below therefore constrains
`clean_frontmatter` only under an explicit successful-parse hypothesis,
inside which the model and `safe_load` agree.  The emitter models `yaml.dump` with
its defaults: `sort_keys=True` (entries sorted by key, code-point order),
block style, `key: scalar` lines, plain style for simple alphanumeric scalars
and single-quoted style (with `'` doubled) otherwise. -/

inductive YamlVal where
  | str (s : String)
  | int (n : Int)
  | bool (b : Bool)
  | null
deriving DecidableEq, Repr

/-- The uncaught Python exceptions `clean_frontmatter` can raise
(`except yaml.YAMLError` does not catch `AttributeError`). -/
inductive PyErr where
  | attributeError
deriving DecidableEq, Repr

/-- Split on `'\n'` (Python `str.split('\n')`, the line structure of the body). -/
def splitNl : List Char → List (List Char)
  | [] => [[]]
  | c :: t =>
    if c = '\n' then [] :: splitNl t
    else
      match splitNl t with
      | [] => [[c]]
      | h :: r => (c :: h) :: r

def trimWs (l : List Char) : List Char :=
  ((l.dropWhile isPySpace).reverse.dropWhile isPySpace).reverse

/-- Decimal integer literals.  The YAML 1.1 resolver used by `yaml.safe_load`
reads a leading-zero numeral as octal (`010` is the int 8) or, when it has a
digit 8 or 9, leaves it a string (`08`); the model does not reproduce those
readings and instead rejects every multi-digit numeral starting with `0` (see
`parseScalar`), keeping the accepted integers exactly the ones `safe_load`
reads the same way. -/
def isIntLit (l : List Char) : Bool :=
  match l with
  | '-' :: t => t ≠ [] && t.all Char.isDigit && (t = ['0'] || t.head? ≠ some '0')
  | _ => l ≠ [] && l.all Char.isDigit && (l = ['0'] || l.head? ≠ some '0')

def digitsToNat (l : List Char) : Nat :=
  l.foldl (fun acc c => acc * 10 + (c.toNat - 48)) 0

def intOfDigits (l : List Char) : Int :=
  match l with
  | '-' :: t => -(digitsToNat t : Int)
  | _ => (digitsToNat l : Int)

/-- YAML 1.1 words that `yaml.safe_load` resolves to non-string scalars
(in some case variant); the parser only accepts the lowercase forms it
models exactly and rejects the rest. -/
def resolverWord (l : List Char) : Bool :=
  let w : String := ⟨l.map Char.toLower⟩
  w = "true" || w = "false" || w = "yes" || w = "no" || w = "on" ||
  w = "off" || w = "null" || w = "~"

/-- Characters allowed in the plain scalars the parser model accepts. -/
def plainChar (c : Char) : Bool :=
  c.isAlphanum || c = ' ' || c = '_' || c = '-' || c = '.'

def parseScalar (v0 : List Char) : Option YamlVal :=
  let v := trimWs v0
  if v = [] then some .null
  else if v = "true".data then some (.bool true)
  else if v = "false".data then some (.bool false)
  else if v = "null".data || v = ['~'] then some .null
  else if resolverWord v then none
  else if isIntLit v then some (.int (intOfDigits v))
  else
    match v with
    | '"' :: t =>
      match t.reverse with
      | '"' :: rinner =>
        let inner := rinner.reverse
        if inner.all (fun c => c ≠ '"' && c ≠ '\\') then some (.str ⟨inner⟩)
        else none
      | _ => none
    | '\x27' :: t =>
      match t.reverse with
      | '\x27' :: rinner =>
        let inner := rinner.reverse
        if inner.all (fun c => c ≠ '\x27' && c ≠ '\\') then some (.str ⟨inner⟩)
        else none
      | _ => none
    | c :: _ =>
      if c.isAlpha && v.all plainChar then some (.str ⟨v⟩) else none
    | [] => none

def keyOk (k : List Char) : Bool :=
  k ≠ [] && k.all (fun c => c.isAlphanum || c = '_') &&
  (match k with | c :: _ => c.isAlpha | [] => false)

/-- Parse one line of the frontmatter body.  `none` = parse failure
(`yaml.YAMLError`); `some none` = blank line; `some (some e)` = an entry. -/
def parseLine (l : List Char) : Option (Option (String × YamlVal)) :=
  if l.all isPySpace then some none
  else
    let k := l.takeWhile (· ≠ ':')
    if keyOk k then
      match l.drop k.length with
      | ':' :: rest =>
        match rest with
        | [] => some (some (⟨k⟩, .null))
        | ' ' :: v => (parseScalar v).map (fun y => some (⟨k⟩, y))
        | _ => none
      | _ => none
    else none

/-- `dict` insertion: overwrite in place if the key exists, else append. -/
def insertEntry (d : List (String × YamlVal)) (k : String) (v : YamlVal) :
    List (String × YamlVal) :=
  if (d.find? (fun p => p.1 = k)).isSome then
    d.map (fun p => if p.1 = k then (k, v) else p)
  else d ++ [(k, v)]

/-- Model of `yaml.safe_load` on the frontmatter body, restricted to flat
`key: value` mappings over the scalars of `parseScalar`; an empty body yields
the empty mapping, matching `safe_load(...) or {}`.  `none` covers both a real
`yaml.YAMLError` and every body the model declines to analyse (so the
`none` branch of `clean_frontmatter` is *not* a faithful account of the real
function outside the `some` domain — e.g. a body that `safe_load` reads as a
plain scalar makes the real code run `'title' in fm_data` on a `str` and can
raise an uncaught `TypeError`); theorems only ever assume `yamlParse = some d`. -/
def yamlParse (body : String) : Option (List (String × YamlVal)) :=
  (splitNl body.data).foldl
    (fun acc ln =>
      match acc with
      | none => none
      | some d =>
        match parseLine ln with
        | none => none
        | some none => some d
        | some (some (k, v)) => some (insertEntry d k v))
    (some [])

def findVal (d : List (String × YamlVal)) (k : String) : Option YamlVal :=
  (d.find? (fun p => p.1 = k)).map (·.2)

def isQuoteChar (c : Char) : Bool := c = '"' || c = '\x27'

/-- Python `value.strip('"\'')`: remove any run of quote characters from both
ends. -/
def stripQuotes (s : String) : String :=
  ⟨((s.data.dropWhile isQuoteChar).reverse.dropWhile isQuoteChar).reverse⟩

/-- `value.strip('"\''); f'"{value}"'` applied to string values. -/
def quoteIfStr : YamlVal → YamlVal
  | .str s => .str ("\"" ++ stripQuotes s ++ "\"")
  | v => v

/-- `frontmatter_mapping`, in the source's dict insertion order. -/
def frontmatter_mapping : List (String × String) :=
  [("sidebarTitle", "sidebar_label"), ("description", "description"),
   ("title", "title")]

/-- One iteration of the `for old_key, new_key in self.frontmatter_mapping.items()`
loop. -/
def mapStep (d : List (String × YamlVal)) (acc : List (String × YamlVal))
    (p : String × String) : List (String × YamlVal) :=
  match findVal d p.1 with
  | some v => if p.1 = "title" then acc else insertEntry acc p.2 (quoteIfStr v)
  | none => acc

/-- Build `new_fm` from the parsed data: the special title handling (which
raises `AttributeError` when the title value is not a string, since only
`str` has `.strip`), then the mapping loop. -/
def buildNewFm (d : List (String × YamlVal)) :
    Except PyErr (List (String × YamlVal)) :=
  match findVal d "title" with
  | none => .ok (frontmatter_mapping.foldl (mapStep d) [])
  | some (.str s) =>
    .ok (frontmatter_mapping.foldl (mapStep d)
      [("title", .str ("\"" ++ stripQuotes s ++ "\""))])
  | some _ => .error .attributeError

/-- Code-point lexicographic order on strings (Python `<` on `str`). -/
def lexLe : List Char → List Char → Bool
  | [], _ => true
  | _ :: _, [] => false
  | a :: as, b :: bs => if a = b then lexLe as bs else decide (a < b)

def strLe (a b : String) : Bool := lexLe a.data b.data

def insSorted (p : String × YamlVal) : List (String × YamlVal) → List (String × YamlVal)
  | [] => [p]
  | q :: t => if strLe p.1 q.1 then p :: q :: t else q :: insSorted p t

/-- `sorted(data.items())` as performed by `yaml.dump`'s `sort_keys=True`
default (keys are distinct, so only keys are compared). -/
def sortByKey : List (String × YamlVal) → List (String × YamlVal)
  | [] => []
  | p :: t => insSorted p (sortByKey t)

/-- PyYAML emits a scalar in plain style only when it is safe to do so; this
model accepts simple alphanumeric scalars (no indicators, no resolver words,
no boundary spaces). -/
def plainSafe (s : String) : Bool :=
  (match s.data with
   | c :: _ => c.isAlphanum
   | [] => false) &&
  s.data.all plainChar && s.data.getLast? ≠ some ' ' && !resolverWord s.data

/-- Single-quoted style: wrap in `'` with internal `'` doubled. -/
def singleQuoted (s : String) : String :=
  "\x27" ++ ⟨s.data.flatMap (fun c => if c = '\x27' then ['\x27', '\x27'] else [c])⟩ ++ "\x27"

def emitVal : YamlVal → String
  | .str s => if plainSafe s then s else singleQuoted s
  | .int n => toString n
  | .bool b => if b then "true" else "false"
  | .null => "null"

/-- `yaml.dump(new_fm, default_flow_style=False, allow_unicode=True)`:
`{}` for the empty mapping, otherwise one `key: value` line per entry in
sorted key order. -/
def dumpFm (d : List (String × YamlVal)) : String :=
  if d = [] then "\x7b\x7d\n"
  else (sortByKey d).foldl (fun acc p => acc ++ p.1 ++ ": " ++ emitVal p.2 ++ "\n") ""

/-- Split at the first occurrence of `pat`, returning the parts before and
after it. -/
def splitAtInfix (pat : List Char) : List Char → Option (List Char × List Char)
  | [] => if pat.isPrefixOf [] then some ([], []) else none
  | c :: t =>
    if pat.isPrefixOf (c :: t) then some ([], (c :: t).drop pat.length)
    else (splitAtInfix pat t).map (fun q => (c :: q.1, q.2))

/-- `re.match(r'^---\n(.*?)\n---', content, re.DOTALL)`: the content must
start with `---\n`; the non-greedy body ends at the earliest `\n---`.
Returns (group 1, the remainder of the content after group 0). -/
def detectFm (l : List Char) : Option (List Char × List Char) :=
  if ['-', '-', '-', '\n'].isPrefixOf l then
    splitAtInfix ['\n', '-', '-', '-'] (l.drop 4)
  else none

/-- `DocsMigrator.clean_frontmatter`.  `.ok` is the returned text (parse
failures are caught and the original content returned); `.error` models an
exception escaping to the caller. -/
def clean_frontmatter (content : String) : Except PyErr String :=
  match detectFm content.data with
  | none => .ok content
  | some (body, rest) =>
    match yamlParse ⟨body⟩ with
    | none => .ok content
    | some d =>
      match buildNewFm d with
      | .error e => .error e
      | .ok fm => .ok ("---\n" ++ dumpFm fm ++ "---\n" ++ (⟨rest⟩ : String))

/-- Substring test (Python `in` on `str`). -/
def containsSub (pat : List Char) : List Char → Bool
  | [] => pat.isPrefixOf []
  | c :: t => pat.isPrefixOf (c :: t) || containsSub pat t

instance {e a : Type} [DecidableEq e] [DecidableEq a] : DecidableEq (Except e a)
  | .ok x, .ok y =>
    if h : x = y then .isTrue (by rw [h]) else .isFalse (fun hc => by cases hc; exact h rfl)
  | .error x, .error y =>
    if h : x = y then .isTrue (by rw [h]) else .isFalse (fun hc => by cases hc; exact h rfl)
  | .ok _, .error _ => .isFalse (fun hc => by cases hc)
  | .error _, .ok _ => .isFalse (fun hc => by cases hc)

/-! ### The whitespace normalization as worded by the spec (for C3)

The spec describes the three whitespace passes as: (a) collapse runs of 3+
newlines (allowing intervening horizontal whitespace) to exactly two
newlines; (b) blank out lines consisting solely of horizontal whitespace;
(c) strip trailing **horizontal** whitespace immediately before each newline.
The definitions below follow those words; they are to be compared with the
code's `wsA`/`wsB`/`wsC` above.  Pass (a)'s wording agrees with the code's
pass, so `claimNormalize` reuses `wsA` for it. -/

/-- Horizontal whitespace (whitespace other than the newline). -/
def isHWs (c : Char) : Bool := isPySpace c && c ≠ '\n'

def joinNl : List (List Char) → List Char
  | [] => []
  | [x] => x
  | x :: t => x ++ '\n' :: joinNl t

/-- Spec pass (b): a line consisting solely of horizontal whitespace is
blanked (replaced by an empty line). -/
def claimWsB (l : List Char) : List Char :=
  joinNl ((splitNl l).map (fun ln => if ln ≠ [] && ln.all isHWs then [] else ln))

def stripTrailingHWs (ln : List Char) : List Char :=
  (ln.reverse.dropWhile isHWs).reverse

def mapInit (f : List Char → List Char) : List (List Char) → List (List Char)
  | [] => []
  | [x] => [x]
  | x :: t => f x :: mapInit f t

/-- Spec pass (c): only trailing horizontal whitespace immediately before
each newline is stripped (the final line has no following newline and is
untouched). -/
def claimWsC (l : List Char) : List Char :=
  joinNl (mapInit stripTrailingHWs (splitNl l))

/-- The whitespace normalization exactly as the spec words it. -/
def claimNormalize (l : List Char) : List Char := claimWsC (claimWsB (wsA l))

def claimNormalizeStr (s : String) : String := ⟨claimNormalize s.data⟩

/-- The code's whitespace normalization, without the final trim. -/
def wsNormalizeOnlyStr (s : String) : String := ⟨wsNormalize s.data⟩

/-- The pairwise property "not (whitespace followed by a newline)". -/
def noWsNlRel (a b : Char) : Prop := ¬(isPySpace a = true ∧ b = '\n')

/-- No whitespace character immediately precedes a `'\n'` anywhere in `l`. -/
def noWsNl (l : List Char) : Prop := l.Chain' noWsNlRel

/-! ## C8: idempotence on documents made of text and well-formed vocabulary tags

A document "containing only vocabulary tags" is modelled as a list of items:
plain text (free of `<` and `{`), open/self-closing tags
`<Name attrs>` / `<Name attrs/>` (attrs free of `<`, `>`, `{`, and either
empty, starting with a space, or the single `/` of an attribute-less
self-closing tag), and closing tags `</Name>`, with every tag name drawn from
the `components` list. -/

inductive MItem where
  | txt (s : List Char)
  | opn (d : List Char) (a : List Char)
  | cls (d : List Char)
deriving DecidableEq, Repr

def itemStr : MItem → List Char
  | .txt s => s
  | .opn d a => '<' :: (d ++ a ++ ['>'])
  | .cls d => '<' :: '/' :: (d ++ ['>'])

def flattenItems : List MItem → List Char
  | [] => []
  | i :: t => itemStr i ++ flattenItems t

def attrsOk (a : List Char) : Bool :=
  a.all (fun c => c ≠ '<' && c ≠ '>' && c ≠ '\x7b') &&
  (a.isEmpty || a.head? = some ' ' || a = ['/'])

def itemOk : MItem → Bool
  | .txt s => s.all (fun c => c ≠ '<' && c ≠ '\x7b')
  | .opn d a => decide (d ∈ componentsL) && attrsOk a
  | .cls d => decide (d ∈ componentsL)

def wfItems (items : List MItem) : Bool := items.all itemOk

/-- The document built from an item list. -/
def mkDoc (items : List MItem) : String := ⟨flattenItems items⟩

/-- Split the item list just after the first closing tag named `c` (the
item-level counterpart of searching for the literal `</c>`). -/
def splitAtCls (c : List Char) : List MItem → Option (List MItem)
  | [] => none
  | .cls d :: t => if d = c then some t else splitAtCls c t
  | _ :: t => splitAtCls c t

/-- Keep-predicates of the bare-tag cleanup and self-closing passes. -/
def openKeep (c : List Char) : MItem → Bool
  | .opn d _ => !(c.isPrefixOf d)
  | _ => true

def closeKeep (c : List Char) : MItem → Bool
  | .cls d => !(decide (d = c))
  | _ => true

def selfKeep (c : List Char) : MItem → Bool
  | .opn d a => !(c.isPrefixOf d && decide (a.getLast? = some '/'))
  | _ => true


end Docs

namespace Docs

/-! ## Helper lemmas: the markup passes are the identity on markup-free text -/

theorem substGo_id (m : List Char → Option (List Char)) :
    ∀ (n : Nat) (l : List Char),
      (∀ t, t <:+ l → t ≠ [] → m t = none) → substGo m n l = l
  | 0, _, _ => rfl
  | _ + 1, [], _ => rfl
  | n + 1, c :: t, h => by
    have hm : m (c :: t) = none := h _ (List.suffix_refl _) (by simp)
    simp only [substGo, hm]
    exact congrArg (c :: ·)
      (substGo_id m n t (fun u hu hne => h u (hu.trans (List.suffix_cons c t)) hne))

theorem subst_id (m : List Char → Option (List Char)) (l : List Char)
    (h : ∀ t, t <:+ l → t ≠ [] → m t = none) : subst m l = l :=
  substGo_id m l.length l h

theorem consPrefix_false {a c : Char} {p t : List Char} (h : c ≠ a) :
    (a :: p).isPrefixOf (c :: t) = false := by
  simp only [List.isPrefixOf, Bool.and_eq_false_iff]
  exact Or.inl (by simpa using fun h2 => h h2.symm)

theorem subst_matcher_id (m : List Char → Option (List Char)) (ch : Char)
    (hm : ∀ (a : Char) (t : List Char), a ≠ ch → m (a :: t) = none)
    (l : List Char) (h : ch ∉ l) : subst m l = l := by
  refine subst_id m l (fun t ht hne => ?_)
  match t, hne with
  | a :: t2, _ =>
    exact hm a t2 (fun hac => h (hac ▸ ht.subset (List.mem_cons_self a t2)))

theorem tryComment_none {a : Char} {t : List Char} (h : a ≠ '\x7b') :
    tryComment (a :: t) = none := by
  simp [tryComment, consPrefix_false h]

theorem tryPaired_none (c : List Char) {a : Char} {t : List Char} (h : a ≠ '<') :
    tryPaired c (a :: t) = none := by
  simp [tryPaired, consPrefix_false h]

theorem trySelfClose_none (c : List Char) {a : Char} {t : List Char} (h : a ≠ '<') :
    trySelfClose c (a :: t) = none := by
  simp [trySelfClose, consPrefix_false h]

theorem tryOpen_none (c : List Char) {a : Char} {t : List Char} (h : a ≠ '<') :
    tryOpen c (a :: t) = none := by
  simp [tryOpen, consPrefix_false h]

theorem tryClose_none (c : List Char) {a : Char} {t : List Char} (h : a ≠ '<') :
    tryClose c (a :: t) = none := by
  simp [tryClose, consPrefix_false h]

theorem stripComments_id {l : List Char} (h : '\x7b' ∉ l) : stripComments l = l :=
  subst_matcher_id tryComment '\x7b' (fun _ _ ha => tryComment_none ha) l h

theorem foldl_paired_id :
    ∀ (cs : List (List Char)) (l : List Char), '<' ∉ l →
      cs.foldl (fun acc c => subst (tryPaired c) acc) l = l
  | [], _, _ => rfl
  | c :: cs, l, h => by
    rw [List.foldl_cons,
      subst_matcher_id (tryPaired c) '<' (fun _ _ ha => tryPaired_none c ha) l h]
    exact foldl_paired_id cs l h

theorem foldl_selfclose_id :
    ∀ (cs : List (List Char)) (l : List Char), '<' ∉ l →
      cs.foldl (fun acc c => subst (trySelfClose c) acc) l = l
  | [], _, _ => rfl
  | c :: cs, l, h => by
    rw [List.foldl_cons,
      subst_matcher_id (trySelfClose c) '<' (fun _ _ ha => trySelfClose_none c ha) l h]
    exact foldl_selfclose_id cs l h

theorem foldl_bare_id :
    ∀ (cs : List (List Char)) (l : List Char), '<' ∉ l →
      cs.foldl (fun acc c => subst (tryClose c) (subst (tryOpen c) acc)) l = l
  | [], _, _ => rfl
  | c :: cs, l, h => by
    rw [List.foldl_cons,
      subst_matcher_id (tryOpen c) '<' (fun _ _ ha => tryOpen_none c ha) l h,
      subst_matcher_id (tryClose c) '<' (fun _ _ ha => tryClose_none c ha) l h]
    exact foldl_bare_id cs l h

theorem stripPaired_id {l : List Char} (h : '<' ∉ l) : stripPaired l = l :=
  foldl_paired_id componentsL l h

theorem stripSelfClosing_id {l : List Char} (h : '<' ∉ l) : stripSelfClosing l = l :=
  foldl_selfclose_id componentsL l h

theorem stripBare_id {l : List Char} (h : '<' ∉ l) : stripBare l = l :=
  foldl_bare_id componentsL l h

/-- On text without `<` and without `{`, every markup pass of the stripper is
the identity, so `process_mdx_content` is exactly whitespace normalization
plus the final trim. -/
theorem process_mdx_no_markup {s : String} (h1 : '<' ∉ s.data)
    (h2 : '\x7b' ∉ s.data) : process_mdx_content s = wsNormalizeStr s := by
  unfold process_mdx_content wsNormalizeStr processMdxL
  rw [stripComments_id h2, stripPaired_id h1, stripSelfClosing_id h1, stripBare_id h1]

end Docs

open Docs

/-! ## Claim theorems -/

/-- C1 (code bug): the component vocabulary is supposed to be eliminated, and
the code's own `mintlify_components` table lists `Tab` among the components to
transform, but the local `components` list inside `process_mdx_content` omits
`Tab`; a `<Tab>...</Tab>` element therefore survives the Markup Stripper
untouched, so the substring `<Tab` (and `</Tab>`) remains in the output. -/
theorem C1_tab_tag_survives :
    process_mdx_content "<Tab>x</Tab>" = "<Tab>x</Tab>" ∧
    containsSub "<Tab".data (process_mdx_content "<Tab>x</Tab>").data = true ∧
    containsSub "</Tab>".data (process_mdx_content "<Tab>x</Tab>").data = true := by
  refine ⟨by decide, by decide, by decide⟩

/-- C2 (counterexample): a document with no frontmatter block and no
vocabulary tags is *not* returned with only leading/trailing whitespace
trimmed: the whitespace passes also rewrite the interior.  On `"a\n\nb"`
(whose trim is itself) the stripper collapses the blank line. -/
theorem C2_counterexample :
    process_mdx_content "a\n\nb" = "a\nb" ∧ ("a\nb" : String) ≠ "a\n\nb" := by
  refine ⟨by decide, by decide⟩

/-- C3 (counterexample): the whitespace-normalization pass of the Markup
Stripper does not implement the spec's (a)-(b)-(c) description.  On
`"a \n\nb"` the spec's passes only strip the trailing space of the first line
(yielding `"a\n\nb"`), but the code's pass (c) pattern `\s+\n` lets `\s+`
match newlines, so the trailing space *and* the blank line collapse to a
single newline. -/
theorem C3_counterexample :
    wsNormalizeOnlyStr "a \n\nb" = "a\nb" ∧
    claimNormalizeStr "a \n\nb" = "a\n\nb" ∧
    process_mdx_content "a \n\nb" = "a\nb" ∧
    ("a\nb" : String) ≠ "a\n\nb" := by
  refine ⟨by decide, by decide, by decide, by decide⟩

/-- C4 (code bug): the code strips the old quotes and wraps the title value
in double quotes (`'"Hello"'` as a Python string), but `yaml.dump` then sees
a scalar that *starts with* `"` and emits it single-quoted, so the output
line is `title: '"Hello"'` for all three input forms — not the intended
`title: "Hello"`, which never occurs in the output. -/
theorem C4_title_double_quoted_then_requoted :
    clean_frontmatter "---\ntitle: Hello\n---\nBody" =
      .ok "---\ntitle: \x27\"Hello\"\x27\n---\n\nBody" ∧
    clean_frontmatter "---\ntitle: \x27Hello\x27\n---\nBody" =
      .ok "---\ntitle: \x27\"Hello\"\x27\n---\n\nBody" ∧
    clean_frontmatter "---\ntitle: \"Hello\"\n---\nBody" =
      .ok "---\ntitle: \x27\"Hello\"\x27\n---\n\nBody" ∧
    containsSub "title: \"Hello\"".data
      "---\ntitle: \x27\"Hello\"\x27\n---\n\nBody".data = false := by
  refine ⟨by decide, by decide, by decide, by decide⟩

/-- C6 (counterexample): the paired-tag pass does end the `<Tabs>` region at
the first `</Tabs>`, leaving `outer</Tabs>`, but the claim forgets the
bare-tag cleanup pass (pass 4), which then deletes the orphaned `</Tabs>`;
the final output is `outer`, not `outer</Tabs>`. -/
theorem C6_counterexample :
    process_mdx_content "<Tabs><Tabs>inner</Tabs>outer</Tabs>" ≠ "outer</Tabs>" := by
  decide

/-- C6 (amended): after the comment pass and the paired-tag pass the document
is exactly `outer</Tabs>` (the region ends at the *first* closing tag of the
same name), and the subsequent bare-tag cleanup removes the leftover
`</Tabs>`, so the Markup Stripper's final output is exactly `outer`. -/
theorem C6_nested_mismatch_then_cleanup :
    (⟨stripPaired (stripComments "<Tabs><Tabs>inner</Tabs>outer</Tabs>".data)⟩ : String) =
      "outer</Tabs>" ∧
    process_mdx_content "<Tabs><Tabs>inner</Tabs>outer</Tabs>" = "outer" := by
  refine ⟨by decide, by decide⟩

/-- C7 (code bug): `clean_frontmatter` only catches `yaml.YAMLError`, but the
title handling calls `.strip` on the parsed title value, which raises an
uncaught `AttributeError` whenever that value is not a string — e.g. for
`title: 123` (`yaml.safe_load` yields the integer `123`).  The exception
propagates to the caller, contradicting the claim that failures are logged
and never thrown outward. -/
theorem C7_nonstring_title_raises :
    clean_frontmatter "---\ntitle: 123\n---\nx" = .error .attributeError := by
  decide

/-- C2 (amended): a document containing no `<` and no `{` (hence no
frontmatter-relevant markup, no vocabulary tags and no Mintlify comments) is
returned with only its whitespace rewritten: the three whitespace passes run,
then leading/trailing whitespace is trimmed. -/
theorem C2_passthrough_ws_only (s : String) (h1 : '<' ∉ s.data)
    (h2 : '\x7b' ∉ s.data) : process_mdx_content s = wsNormalizeStr s :=
  process_mdx_no_markup h1 h2

theorem C2_passthrough_ws_only_witness :
    process_mdx_content "a\n\nb" = wsNormalizeStr "a\n\nb" :=
  C2_passthrough_ws_only "a\n\nb" (by decide) (by decide)

namespace Docs

/-! ## Helper lemmas: keys of the rebuilt frontmatter -/

end Docs

namespace Docs

/-! ## Helper lemmas: no whitespace immediately precedes a newline after pass (c) -/

theorem takeWhile_append_all {p : Char → Bool} :
    ∀ {A B : List Char}, (∀ a ∈ A, p a = true) →
      (A ++ B).takeWhile p = A ++ B.takeWhile p := by
  intro A
  induction A with
  | nil => intro B _; rfl
  | cons a A ih =>
    intro B h
    have ha : p a = true := h a (List.mem_cons_self a A)
    simp only [List.cons_append, List.takeWhile_cons, ha, if_true]
    rw [ih (fun x hx => h x (List.mem_cons_of_mem a hx))]

theorem takeWhile_dropWhile_nil {p : Char → Bool} :
    ∀ l : List Char, (l.dropWhile p).takeWhile p = [] := by
  intro l
  induction l with
  | nil => rfl
  | cons c t ih =>
    by_cases h : p c = true
    · simp only [List.dropWhile_cons, h, if_true]; exact ih
    · simp only [List.dropWhile_cons, h]
      simp only [Bool.false_eq_true, if_false, List.takeWhile_cons, h]

theorem wsCFind_none {run : List Char} : ∀ {j : Nat}, wsCFind run j = none →
    ∀ k, 1 ≤ k → k ≤ j → run.get? k ≠ some '\n' := by
  intro j
  induction j with
  | zero =>
    intro _ k h1 h2
    exact absurd (Nat.le_trans h1 h2) (by omega)
  | succ j ih =>
    intro h k h1 h2
    unfold wsCFind at h
    by_cases hc : run.get? (j + 1) = some '\n'
    · rw [if_pos hc] at h; exact Option.noConfusion h
    · rw [if_neg hc] at h
      rcases Nat.lt_or_ge k (j + 1) with hk | hk
      · exact ih h k h1 (by omega)
      · have hkeq : k = j + 1 := by omega
        rw [hkeq]; exact hc

theorem wsCFind_some {run : List Char} : ∀ {j k : Nat}, wsCFind run j = some k →
    run.get? k = some '\n' ∧ 1 ≤ k ∧ k ≤ j ∧
      ∀ k2, k < k2 → k2 ≤ j → run.get? k2 ≠ some '\n' := by
  intro j
  induction j with
  | zero => intro k h; exact Option.noConfusion h
  | succ j ih =>
    intro k h
    unfold wsCFind at h
    by_cases hc : run.get? (j + 1) = some '\n'
    · rw [if_pos hc] at h
      have hk : k = j + 1 := (Option.some.inj h).symm
      subst hk
      exact ⟨hc, by omega, Nat.le_refl _,
        fun k2 hlt hle => absurd (Nat.lt_of_lt_of_le hlt hle) (Nat.lt_irrefl _)⟩
    · rw [if_neg hc] at h
      obtain ⟨h1, h2, h3, h4⟩ := ih h
      refine ⟨h1, h2, by omega, fun k2 hlt hle => ?_⟩
      rcases Nat.lt_or_ge k2 (j + 1) with hk2 | hk2
      · exact h4 k2 hlt (by omega)
      · have hkeq : k2 = j + 1 := by omega
        rw [hkeq]; exact hc

theorem wsCGo_cons_nonws {n : Nat} {c : Char} {t : List Char}
    (h : isPySpace c = false) : wsCGo (n + 1) (c :: t) = c :: wsCGo n t := by
  simp [wsCGo, h]

theorem wsCGo_cons_ws_none {n : Nat} {c : Char} {t : List Char}
    (h : isPySpace c = true)
    (hf : wsCFind ((c :: t).takeWhile isPySpace)
      (((c :: t).takeWhile isPySpace).length - 1) = none) :
    wsCGo (n + 1) (c :: t) = c :: wsCGo n t := by
  rw [show (c :: t).takeWhile isPySpace = c :: t.takeWhile isPySpace from by
    simp [List.takeWhile_cons, h]] at hf
  simp only [List.length_cons, Nat.add_sub_cancel] at hf
  simp [wsCGo, h, hf]

theorem wsCGo_cons_ws_some {n k : Nat} {c : Char} {t : List Char}
    (h : isPySpace c = true)
    (hf : wsCFind ((c :: t).takeWhile isPySpace)
      (((c :: t).takeWhile isPySpace).length - 1) = some k) :
    wsCGo (n + 1) (c :: t) = '\n' :: wsCGo n ((c :: t).drop (k + 1)) := by
  rw [show (c :: t).takeWhile isPySpace = c :: t.takeWhile isPySpace from by
    simp [List.takeWhile_cons, h]] at hf
  simp only [List.length_cons, Nat.add_sub_cancel] at hf
  simp [wsCGo, h, hf]

theorem wsCGo_spec : ∀ (n : Nat) (l : List Char), l.length ≤ n →
    List.Chain' noWsNlRel (wsCGo n l) ∧
    ((wsCGo n l).head? = some '\n' →
      ∃ c0, l.head? = some c0 ∧ isPySpace c0 = true ∧ '\n' ∈ l.takeWhile isPySpace)
  | 0, l, h => by
    have hl : l = [] := List.eq_nil_of_length_eq_zero (Nat.le_zero.mp h)
    subst hl
    exact ⟨List.chain'_nil, fun hh => Option.noConfusion hh⟩
  | n + 1, [], _ => ⟨List.chain'_nil, fun hh => Option.noConfusion hh⟩
  | n + 1, c :: t, h => by
    have hlt : t.length ≤ n := Nat.le_of_succ_le_succ h
    by_cases hws : isPySpace c = true
    · have hrun : (c :: t).takeWhile isPySpace = c :: t.takeWhile isPySpace := by
        simp [List.takeWhile_cons, hws]
      cases hf : wsCFind ((c :: t).takeWhile isPySpace)
          (((c :: t).takeWhile isPySpace).length - 1) with
      | none =>
        rw [wsCGo_cons_ws_none hws hf]
        obtain ⟨ihc, iha⟩ := wsCGo_spec n t hlt
        constructor
        · rw [List.chain'_cons']
          refine ⟨?_, ihc⟩
          intro b hb hcon
          rcases hcon with ⟨_, hbnl⟩
          subst hbnl
          obtain ⟨c1, hc1, hc1ws, hmem⟩ := iha (Option.mem_def.mp hb)
          rcases List.mem_iff_get?.mp hmem with ⟨i, hi⟩
          have hilen : i < (t.takeWhile isPySpace).length := by
            rcases List.get?_eq_some.mp hi with ⟨hl2, _⟩; exact hl2
          have hget : ((c :: t).takeWhile isPySpace).get? (i + 1) = some '\n' := by
            rw [hrun, List.get?_cons_succ]; exact hi
          refine wsCFind_none hf (i + 1) (by omega) ?_ hget
          rw [hrun]
          simp only [List.length_cons]
          omega
        · intro hh
          have hc : c = '\n' := Option.some.inj hh
          refine ⟨c, rfl, hws, ?_⟩
          rw [hrun, hc]
          exact List.mem_cons_self _ _
      | some k =>
        rw [wsCGo_cons_ws_some hws hf]
        obtain ⟨hknl, hk1, hkle, hkmax⟩ := wsCFind_some hf
        have hrunlen : ((c :: t).takeWhile isPySpace).length =
            (t.takeWhile isPySpace).length + 1 := by
          rw [hrun]; simp
        have hrl : ((c :: t).drop (k + 1)).length ≤ n := by
          rw [List.length_drop]
          simp only [List.length_cons]
          omega
        obtain ⟨ihc, iha⟩ := wsCGo_spec n ((c :: t).drop (k + 1)) hrl
        constructor
        · rw [List.chain'_cons']
          refine ⟨?_, ihc⟩
          intro b hb hcon
          rcases hcon with ⟨_, hbnl⟩
          subst hbnl
          obtain ⟨c0, hc0, hc0ws, hmem⟩ := iha (Option.mem_def.mp hb)
          have hkrun : k + 1 ≤ ((c :: t).takeWhile isPySpace).length := by omega
          have hsplit : (c :: t).drop (k + 1) =
              ((c :: t).takeWhile isPySpace).drop (k + 1) ++
                (c :: t).dropWhile isPySpace := by
            conv_lhs => rw [← List.takeWhile_append_dropWhile isPySpace (c :: t)]
            exact List.drop_append_of_le_length hkrun
          have htw : ((c :: t).drop (k + 1)).takeWhile isPySpace =
              ((c :: t).takeWhile isPySpace).drop (k + 1) := by
            rw [hsplit,
              takeWhile_append_all
                (fun a ha => List.mem_takeWhile_imp (List.drop_subset _ _ ha)),
              takeWhile_dropWhile_nil, List.append_nil]
          rw [htw] at hmem
          rcases List.mem_iff_get?.mp hmem with ⟨i, hi⟩
          rw [List.get?_drop] at hi
          have hib : k + 1 + i < ((c :: t).takeWhile isPySpace).length := by
            rcases List.get?_eq_some.mp hi with ⟨hl2, _⟩; exact hl2
          exact hkmax (k + 1 + i) (by omega) (by omega) hi
        · intro _
          exact ⟨c, rfl, hws, List.get?_mem hknl⟩
    · have hws2 : isPySpace c = false := by
        cases hb : isPySpace c
        · rfl
        · exact absurd hb hws
      rw [wsCGo_cons_nonws hws2]
      obtain ⟨ihc, iha⟩ := wsCGo_spec n t hlt
      constructor
      · rw [List.chain'_cons']
        refine ⟨?_, ihc⟩
        intro b _ hcon
        rcases hcon with ⟨h1, _⟩
        rw [hws2] at h1
        exact Bool.noConfusion h1
      · intro hh
        have hc : c = '\n' := Option.some.inj hh
        rw [hc] at hws2
        exact absurd hws2 (by decide)

theorem wsC_noWsNl (l : List Char) : noWsNl (wsC l) :=
  (wsCGo_spec l.length l (Nat.le_refl _)).1

theorem chain_dropWhile {R : Char → Char → Prop} {p : Char → Bool} :
    ∀ {l : List Char}, List.Chain' R l → List.Chain' R (l.dropWhile p) := by
  intro l
  induction l with
  | nil => intro h; exact h
  | cons c t ih =>
    intro h
    by_cases hp : p c = true
    · simp only [List.dropWhile_cons, hp, if_true]
      exact ih h.tail
    · simp only [List.dropWhile_cons, hp]
      simpa using h

theorem noWsNl_stripEnds {l : List Char} (h : noWsNl l) : noWsNl (stripEnds l) := by
  unfold stripEnds
  have h1 : List.Chain' noWsNlRel (l.dropWhile isPySpace) := chain_dropWhile h
  have h2 : List.Chain' (flip noWsNlRel) ((l.dropWhile isPySpace).reverse) :=
    List.chain'_reverse.mpr h1
  have h3 : List.Chain' (flip noWsNlRel)
      (((l.dropWhile isPySpace).reverse).dropWhile isPySpace) := chain_dropWhile h2
  exact List.chain'_reverse.mpr h3

/-- The composition of the three whitespace passes and the final trim leaves
no whitespace character immediately before any newline. -/
theorem wsNormalize_noWsNl (l : List Char) : noWsNl (stripEnds (wsNormalize l)) := by
  simp only [wsNormalize]
  exact noWsNl_stripEnds (wsC_noWsNl _)

end Docs

/-- C3 (amended): the whitespace normalization applies, in order, pass (a)
(collapse 3+-newline runs to two newlines), pass (b) (delete line-start
whitespace runs that end at a line end), and pass (c) — which, because `\s+`
also matches newlines, collapses *any* whitespace run preceding a newline
(including blank lines) down to that single newline, not just horizontal
whitespace.  Consequently, in the Markup Stripper's output no whitespace
character immediately precedes a newline: no trailing whitespace, no
whitespace-only lines, and no blank lines at all. -/
theorem C3_no_ws_before_newline (s : String) : noWsNl (process_mdx_content s).data := by
  have hx : (process_mdx_content s).data = processMdxL s.data := by
    simp only [process_mdx_content]
  rw [hx]
  simp only [processMdxL]
  exact wsNormalize_noWsNl _

namespace Docs

end Docs

namespace Docs

/-! ### Basic facts about the component names and token shapes -/

theorem compsL_facts : ∀ c ∈ componentsL, c ≠ [] ∧ ∀ x ∈ c, x.isAlpha = true := by
  decide

theorem alpha_ne {x y : Char} (h : x.isAlpha = true) (hy : y.isAlpha = false) :
    x ≠ y := by
  intro he
  subst he
  rw [h] at hy
  exact Bool.noConfusion hy

theorem attrsOk_cases {a : List Char} (h : attrsOk a = true) :
    a = [] ∨ (∃ r, a = ' ' :: r) ∨ a = ['/'] := by
  simp only [attrsOk, Bool.and_eq_true, Bool.or_eq_true] at h
  rcases h with ⟨_, (h4 | h4) | h3⟩
  · left
    exact List.isEmpty_iff.mp h4
  · right; left
    cases a with
    | nil => exact absurd h4 (by simp)
    | cons x r =>
      refine ⟨r, ?_⟩
      have hx : x = ' ' := by simpa using h4
      rw [hx]
  · right; right
    simpa using h3

theorem attrsOk_chars {a : List Char} (h : attrsOk a = true) :
    ∀ x ∈ a, x ≠ '<' ∧ x ≠ '>' ∧ x ≠ '\x7b' := by
  simp only [attrsOk, Bool.and_eq_true] at h
  intro x hx
  have h2 := List.all_eq_true.mp h.1 x hx
  simp only [Bool.and_eq_true, decide_eq_true_eq] at h2
  exact ⟨h2.1.1, h2.1.2, h2.2⟩

theorem alpha_prefix_split {c : List Char} :
    ∀ {d e : List Char}, (∀ x ∈ c, x.isAlpha = true) →
      (∀ x, e.head? = some x → x.isAlpha = false) → c <+: d ++ e → c <+: d := by
  induction c with
  | nil => intro d e _ _ _; exact List.nil_prefix
  | cons c0 c2 ih =>
    intro d e hc he h
    cases d with
    | nil =>
      exfalso
      rcases h with ⟨t, ht⟩
      have hhead : e.head? = some c0 := by
        rw [List.nil_append] at ht
        rw [← ht]
        rfl
      exact absurd (hc c0 (List.mem_cons_self _ _))
        (by rw [he c0 hhead]; exact Bool.noConfusion)
    | cons d0 d2 =>
      rw [List.cons_append] at h
      rcases List.cons_prefix_cons.mp h with ⟨he0, h2⟩
      exact he0 ▸ List.cons_prefix_cons.mpr
        ⟨rfl, ih (fun x hx => hc x (List.mem_cons_of_mem _ hx)) he h2⟩

theorem head_of_attrs_gt {a : List Char} (ha : attrsOk a = true) (rest : List Char) :
    ∀ x, (a ++ '>' :: rest).head? = some x → x.isAlpha = false := by
  intro x hx
  rcases attrsOk_cases ha with h | ⟨r, h⟩ | h <;> subst h <;>
    simp only [List.nil_append, List.cons_append, List.head?_cons,
      Option.some.injEq] at hx <;> rw [← hx] <;> decide

/-- At an open/self-closing token, `<C` is a prefix iff `C` is a prefix of the
tag name (the attribute block cannot continue an alphabetic component name). -/
theorem opn_norm (d a rest : List Char) :
    itemStr (.opn d a) ++ rest = '<' :: (d ++ (a ++ '>' :: rest)) := by
  simp [itemStr, List.append_assoc]

theorem cls_norm (d rest : List Char) :
    itemStr (.cls d) ++ rest = '<' :: '/' :: (d ++ '>' :: rest) := by
  simp [itemStr, List.append_assoc]

theorem prefix_opn_iff {c d a : List Char} (rest : List Char)
    (hc : ∀ x ∈ c, x.isAlpha = true) (ha : attrsOk a = true) :
    ('<' :: c) <+: (itemStr (.opn d a) ++ rest) ↔ c <+: d := by
  rw [opn_norm, List.cons_prefix_cons]
  constructor
  · rintro ⟨_, h2⟩
    exact alpha_prefix_split hc (fun x hx => head_of_attrs_gt ha rest x hx) h2
  · intro h
    exact ⟨rfl, h.trans (List.prefix_append d _)⟩

theorem close_aux {c : List Char} :
    ∀ {d : List Char} (rest : List Char), (∀ x ∈ c, x.isAlpha = true) →
      (∀ x ∈ d, x.isAlpha = true) →
      ((c ++ ['>']) <+: (d ++ '>' :: rest) ↔ c = d) := by
  induction c with
  | nil =>
    intro d rest _ hd
    cases d with
    | nil => simp
    | cons d0 d2 =>
      simp only [List.nil_append]
      constructor
      · intro h
        rcases List.cons_prefix_cons.mp h with ⟨he, _⟩
        exact absurd he.symm (alpha_ne (hd d0 (List.mem_cons_self _ _)) (by decide))
      · intro h; exact absurd h (by simp)
  | cons c0 c2 ih =>
    intro d rest hc hd
    cases d with
    | nil =>
      simp only [List.cons_append, List.nil_append]
      constructor
      · intro h
        rcases List.cons_prefix_cons.mp h with ⟨he, _⟩
        exact absurd he (alpha_ne (hc c0 (List.mem_cons_self _ _)) (by decide))
      · intro h; exact absurd h (by simp)
    | cons d0 d2 =>
      simp only [List.cons_append]
      rw [List.cons_prefix_cons]
      constructor
      · rintro ⟨he, h2⟩
        subst he
        rw [(ih rest (fun x hx => hc x (List.mem_cons_of_mem _ hx))
          (fun x hx => hd x (List.mem_cons_of_mem _ hx))).mp h2]
      · intro h
        injection h with h1 h2
        subst h1; subst h2
        exact ⟨rfl, (ih rest (fun x hx => hc x (List.mem_cons_of_mem _ hx))
          (fun x hx => hd x (List.mem_cons_of_mem _ hx))).mpr rfl⟩

/-- At a closing token, `</C>` is a prefix iff the names agree exactly. -/
theorem prefix_cls_iff {c d : List Char} (rest : List Char)
    (hc : ∀ x ∈ c, x.isAlpha = true) (hd : ∀ x ∈ d, x.isAlpha = true) :
    ('<' :: '/' :: (c ++ ['>'])) <+: (itemStr (.cls d) ++ rest) ↔ c = d := by
  rw [cls_norm, List.cons_prefix_cons, List.cons_prefix_cons]
  constructor
  · rintro ⟨_, _, h⟩
    exact (close_aux rest hc hd).mp h
  · intro h
    exact ⟨rfl, rfl, (close_aux rest hc hd).mpr h⟩

end Docs

namespace Docs

/-! ### Every matcher consumes at least one character; fuel irrelevance -/

theorem dropThroughInfix_length {pat : List Char} :
    ∀ {l r : List Char}, dropThroughInfix pat l = some r → r.length ≤ l.length := by
  intro l
  induction l with
  | nil =>
    intro r h
    unfold dropThroughInfix at h
    split at h
    · cases h; simp
    · exact Option.noConfusion h
  | cons c t ih =>
    intro r h
    unfold dropThroughInfix at h
    split at h
    · cases h
      simp [List.length_drop]
    · exact Nat.le_trans (ih h) (by simp)

theorem length_dropWhile_le (p : Char → Bool) (l : List Char) :
    (l.dropWhile p).length ≤ l.length := by
  induction l with
  | nil => simp
  | cons c t ih =>
    rw [List.dropWhile_cons]
    split
    · exact Nat.le_trans ih (by simp)
    · simp

theorem isPrefixOf_length {p l : List Char} (h : p.isPrefixOf l = true) :
    p.length ≤ l.length :=
  (List.isPrefixOf_iff_prefix.mp h).length_le

theorem tryComment_shrink : ∀ {l r : List Char}, tryComment l = some r →
    r.length < l.length := by
  intro l r h
  unfold tryComment at h
  split at h
  · split at h
    · rename_i hpre _
      have h1 : r.length ≤ ((((l.drop 3).dropWhile isPySpace).drop 8)).length :=
        dropThroughInfix_length h
      have h2 : (((l.drop 3).dropWhile isPySpace)).length ≤ (l.drop 3).length :=
        length_dropWhile_le _ _
      have h3 : (3 : Nat) ≤ l.length := isPrefixOf_length hpre
      simp only [List.length_drop] at h1 h2 ⊢
      omega
    · exact Option.noConfusion h
  · exact Option.noConfusion h

theorem tryPaired_shrink (c : List Char) : ∀ {l r : List Char},
    tryPaired c l = some r → r.length < l.length := by
  intro l r h
  unfold tryPaired at h
  split at h
  · rename_i hpre
    split at h
    · rename_i r2 harm
      have h1 : r.length ≤ r2.length := dropThroughInfix_length h
      have h2 : r2.length + 1 ≤ (l.drop (c.length + 1)).length := by
        have := congrArg List.length harm
        simp only [List.length_cons] at this
        rw [← this]
        exact length_dropWhile_le _ _
      have h3 : c.length + 1 ≤ l.length := by
        have := isPrefixOf_length hpre
        simpa using this
      simp only [List.length_drop] at h2
      omega
    · exact Option.noConfusion h
  · exact Option.noConfusion h

theorem trySelfClose_shrink (c : List Char) : ∀ {l r : List Char},
    trySelfClose c l = some r → r.length < l.length := by
  intro l r h
  unfold trySelfClose at h
  split at h
  · rename_i hpre
    split at h
    · rename_i r2 harm
      split at h
      · cases h
        have hlen := congrArg List.length harm
        simp only [List.length_cons, List.length_drop] at hlen
        have h3 : c.length + 1 ≤ l.length := by
          have := isPrefixOf_length hpre
          simpa using this
        omega
      · exact Option.noConfusion h
    · exact Option.noConfusion h
  · exact Option.noConfusion h

theorem tryOpen_shrink (c : List Char) : ∀ {l r : List Char},
    tryOpen c l = some r → r.length < l.length := by
  intro l r h
  unfold tryOpen at h
  split at h
  · rename_i hpre
    split at h
    · rename_i r2 harm
      cases h
      have h2 : r.length + 1 ≤ (l.drop (c.length + 1)).length := by
        have := congrArg List.length harm
        simp only [List.length_cons] at this
        rw [← this]
        exact length_dropWhile_le _ _
      have h3 : c.length + 1 ≤ l.length := by
        have := isPrefixOf_length hpre
        simpa using this
      simp only [List.length_drop] at h2
      omega
    · exact Option.noConfusion h
  · exact Option.noConfusion h

theorem tryClose_shrink (c : List Char) : ∀ {l r : List Char},
    tryClose c l = some r → r.length < l.length := by
  intro l r h
  unfold tryClose at h
  split at h
  · rename_i hpre
    cases h
    have h3 : c.length + 3 ≤ l.length := by
      have := isPrefixOf_length hpre
      simpa [Nat.add_comm, Nat.add_left_comm] using this
    simp only [List.length_drop]
    omega
  · exact Option.noConfusion h

theorem substGo_nil (m : List Char → Option (List Char)) :
    ∀ n, substGo m n [] = []
  | 0 => rfl
  | _ + 1 => rfl

theorem substGo_fuel (m : List Char → Option (List Char))
    (hm : ∀ l r, m l = some r → r.length < l.length) :
    ∀ (n1 n2 : Nat) (l : List Char), l.length ≤ n1 → l.length ≤ n2 →
      substGo m n1 l = substGo m n2 l
  | 0, n2, l, h1, _ => by
    have hl : l = [] := List.eq_nil_of_length_eq_zero (Nat.le_zero.mp h1)
    subst hl
    rw [substGo_nil, substGo_nil]
  | n1 + 1, n2, [], _, _ => by rw [substGo_nil, substGo_nil]
  | n1 + 1, n2, c :: t, h1, h2 => by
    cases n2 with
    | zero => exact absurd h2 (by simp)
    | succ n2 =>
      simp only [substGo]
      cases hmatch : m (c :: t) with
      | some r =>
        have hr : r.length < t.length + 1 := by
          have := hm _ _ hmatch
          simpa using this
        exact substGo_fuel m hm n1 n2 r (by simp at h1; omega) (by simp at h2; omega)
      | none =>
        exact congrArg (c :: ·)
          (substGo_fuel m hm n1 n2 t (by simp at h1; omega) (by simp at h2; omega))

theorem subst_eq_substGo (m : List Char → Option (List Char))
    (hm : ∀ l r, m l = some r → r.length < l.length) {n : Nat} {l : List Char}
    (h : l.length ≤ n) : substGo m n l = subst m l :=
  substGo_fuel m hm n l.length l h (Nat.le_refl _)

theorem subst_cons_match (m : List Char → Option (List Char))
    (hm : ∀ l r, m l = some r → r.length < l.length) {c : Char} {t r : List Char}
    (h : m (c :: t) = some r) : subst m (c :: t) = subst m r := by
  unfold subst
  simp only [List.length_cons, substGo, h]
  exact subst_eq_substGo m hm (by
    have := hm _ _ h
    simp only [List.length_cons] at this
    omega)

theorem subst_cons_none (m : List Char → Option (List Char)) {c : Char}
    {t : List Char} (h : m (c :: t) = none) :
    subst m (c :: t) = c :: subst m t := by
  unfold subst
  simp only [List.length_cons, substGo, h]

theorem suffix_split {u blk rest : List Char} (hu : u <:+ blk ++ rest)
    (hl : rest.length < u.length) : ∃ k, k < blk.length ∧ u = blk.drop k ++ rest := by
  rcases hu with ⟨p, hp⟩
  have hlen := congrArg List.length hp
  simp only [List.length_append] at hlen
  refine ⟨p.length, by omega, ?_⟩
  have h2 : (p ++ u).drop p.length = (blk ++ rest).drop p.length := by rw [hp]
  rw [List.drop_left] at h2
  rw [h2, List.drop_append_of_le_length (by omega)]

theorem subst_copy (m : List Char → Option (List Char))
    (hm : ∀ l r, m l = some r → r.length < l.length) :
    ∀ (pre r : List Char),
      (∀ u, u <:+ (pre ++ r) → r.length < u.length → m u = none) →
      subst m (pre ++ r) = pre ++ subst m r
  | [], _, _ => by simp
  | p0 :: pre2, r, h => by
    have hnone : m (p0 :: (pre2 ++ r)) = none := by
      refine h _ (List.suffix_refl _) ?_
      simp only [List.length_cons, List.length_append]
      omega
    rw [List.cons_append, subst_cons_none m hnone,
      subst_copy m hm pre2 r (fun u hu hlu =>
        h u (hu.trans ((List.suffix_cons p0 (pre2 ++ r)).trans
          (by rw [List.cons_append]))) hlu)]
    rfl

theorem subst_copy_txt (m : List Char → Option (List Char))
    (hm : ∀ l r, m l = some r → r.length < l.length) (ch : Char)
    (hnone : ∀ (a : Char) (t2 : List Char), a ≠ ch → m (a :: t2) = none)
    (blk rest : List Char) (hblk : ∀ x ∈ blk, x ≠ ch) :
    subst m (blk ++ rest) = blk ++ subst m rest := by
  refine subst_copy m hm blk rest (fun u hu hlu => ?_)
  rcases suffix_split hu hlu with ⟨k, hk, hu2⟩
  cases hdrop : blk.drop k with
  | nil =>
    exfalso
    have := congrArg List.length hdrop
    simp only [List.length_drop, List.length_nil] at this
    omega
  | cons b0 b2 =>
    rw [hu2, hdrop, List.cons_append]
    exact hnone b0 _ (hblk b0 (List.drop_subset k blk (hdrop ▸ List.mem_cons_self _ _)))

theorem subst_copy_tok (m : List Char → Option (List Char))
    (hm : ∀ l r, m l = some r → r.length < l.length)
    (hnone : ∀ (a : Char) (t2 : List Char), a ≠ '<' → m (a :: t2) = none)
    (d0 : Char) (tl rest : List Char) (htl : ∀ x ∈ tl, x ≠ '<')
    (hhead : m ((d0 :: tl) ++ rest) = none) :
    subst m ((d0 :: tl) ++ rest) = (d0 :: tl) ++ subst m rest := by
  refine subst_copy m hm (d0 :: tl) rest (fun u hu hlu => ?_)
  rcases suffix_split hu hlu with ⟨k, hk, hu2⟩
  cases k with
  | zero => rw [hu2]; exact hhead
  | succ k2 =>
    have hdk : (d0 :: tl).drop (k2 + 1) = tl.drop k2 := rfl
    rw [hu2, hdk]
    cases hdrop : tl.drop k2 with
    | nil =>
      exfalso
      have := congrArg List.length hdrop
      simp only [List.length_drop, List.length_cons, List.length_nil] at this hk
      omega
    | cons b0 b2 =>
      rw [List.cons_append]
      exact hnone b0 _ (htl b0 (List.drop_subset k2 tl (hdrop ▸ List.mem_cons_self _ _)))

end Docs

namespace Docs

/-! ### Well-formedness accessors and matcher evaluation at tokens -/

theorem wf_cons {i : MItem} {items : List MItem} :
    wfItems (i :: items) = true ↔ itemOk i = true ∧ wfItems items = true := by
  simp [wfItems, List.all_cons]

theorem txt_facts {s : List Char} (h : itemOk (.txt s) = true) :
    ∀ x ∈ s, x ≠ '<' ∧ x ≠ '\x7b' := by
  simp only [itemOk] at h
  intro x hx
  have h2 := List.all_eq_true.mp h x hx
  simp only [Bool.and_eq_true, decide_eq_true_eq] at h2
  exact h2

theorem opn_facts {d a : List Char} (h : itemOk (.opn d a) = true) :
    d ∈ componentsL ∧ attrsOk a = true ∧ d ≠ [] ∧ ∀ x ∈ d, x.isAlpha = true := by
  simp only [itemOk, Bool.and_eq_true, decide_eq_true_eq] at h
  exact ⟨h.1, h.2, (compsL_facts d h.1).1, (compsL_facts d h.1).2⟩

theorem cls_facts {d : List Char} (h : itemOk (.cls d) = true) :
    d ∈ componentsL ∧ d ≠ [] ∧ ∀ x ∈ d, x.isAlpha = true := by
  simp only [itemOk, decide_eq_true_eq] at h
  exact ⟨h, (compsL_facts d h).1, (compsL_facts d h).2⟩

theorem opn_tail_chars {d a : List Char} (hd : ∀ x ∈ d, x.isAlpha = true)
    (ha : attrsOk a = true) : ∀ x ∈ d ++ a ++ ['>'], x ≠ '<' := by
  intro x hx
  rcases List.mem_append.mp hx with hx2 | hx2
  · rcases List.mem_append.mp hx2 with hx3 | hx3
    · exact alpha_ne (hd x hx3) (by decide)
    · exact (attrsOk_chars ha x hx3).1
  · simp only [List.mem_singleton] at hx2
    rw [hx2]; decide

theorem cls_tail_chars {d : List Char} (hd : ∀ x ∈ d, x.isAlpha = true) :
    ∀ x ∈ '/' :: (d ++ ['>']), x ≠ '<' := by
  intro x hx
  rcases List.mem_cons.mp hx with hx2 | hx2
  · rw [hx2]; decide
  · rcases List.mem_append.mp hx2 with hx3 | hx3
    · exact alpha_ne (hd x hx3) (by decide)
    · simp only [List.mem_singleton] at hx3
      rw [hx3]; decide

theorem dropWhile_append_all {p : Char → Bool} :
    ∀ {A B : List Char}, (∀ x ∈ A, p x = true) →
      (A ++ B).dropWhile p = B.dropWhile p := by
  intro A
  induction A with
  | nil => intro B _; rfl
  | cons a A ih =>
    intro B h
    rw [List.cons_append, List.dropWhile_cons, if_pos (h a (List.mem_cons_self _ _))]
    exact ih (fun x hx => h x (List.mem_cons_of_mem _ hx))

theorem mem_of_getLast? : ∀ {l : List Char} {x : Char}, l.getLast? = some x → x ∈ l
  | [], _, h => Option.noConfusion h
  | [a], x, h => by
    simp only [List.getLast?_singleton, Option.some.injEq] at h
    rw [h]; exact List.mem_singleton_self _
  | a :: b :: t, x, h => by
    rw [List.getLast?_cons_cons] at h
    exact List.mem_cons_of_mem a (mem_of_getLast? h)

/-- With `c` a prefix of the tag name, the paired matcher at an open token
consumes exactly the token and then searches for the literal `</c>`. -/
theorem tryPaired_at_opn {c d2 a : List Char} (rest : List Char)
    (hc : ∀ x ∈ c, x.isAlpha = true) (hd : ∀ x ∈ c ++ d2, x.isAlpha = true)
    (ha : attrsOk a = true) :
    tryPaired c (itemStr (.opn (c ++ d2) a) ++ rest) =
      dropThroughInfix ('<' :: '/' :: (c ++ ['>'])) rest := by
  have hpre : ('<' :: c).isPrefixOf (itemStr (.opn (c ++ d2) a) ++ rest) = true :=
    List.isPrefixOf_iff_prefix.mpr
      ((prefix_opn_iff rest hc ha).mpr (List.prefix_append c d2))
  rw [opn_norm] at hpre ⊢
  unfold tryPaired
  rw [hpre]
  simp only [if_true, List.drop_succ_cons]
  have hdrop : ((c ++ d2) ++ (a ++ '>' :: rest)).drop c.length =
      d2 ++ (a ++ '>' :: rest) := by
    rw [List.append_assoc]
    exact List.drop_left c _
  rw [hdrop, dropWhile_append_all (fun x hx =>
      by simpa using alpha_ne (hd x (List.mem_append_right c hx)) (by decide)),
    dropWhile_append_all (fun x hx => by simpa using (attrsOk_chars ha x hx).2.1),
    List.dropWhile_cons, if_neg (by simp)]
  rfl

/-- With `c` a prefix of the tag name, the bare-open matcher at an open token
consumes exactly the token. -/
theorem tryOpen_at_opn {c d2 a : List Char} (rest : List Char)
    (hc : ∀ x ∈ c, x.isAlpha = true) (hd : ∀ x ∈ c ++ d2, x.isAlpha = true)
    (ha : attrsOk a = true) :
    tryOpen c (itemStr (.opn (c ++ d2) a) ++ rest) = some rest := by
  have hpre : ('<' :: c).isPrefixOf (itemStr (.opn (c ++ d2) a) ++ rest) = true :=
    List.isPrefixOf_iff_prefix.mpr
      ((prefix_opn_iff rest hc ha).mpr (List.prefix_append c d2))
  rw [opn_norm] at hpre ⊢
  unfold tryOpen
  rw [hpre]
  simp only [if_true, List.drop_succ_cons]
  have hdrop : ((c ++ d2) ++ (a ++ '>' :: rest)).drop c.length =
      d2 ++ (a ++ '>' :: rest) := by
    rw [List.append_assoc]
    exact List.drop_left c _
  rw [hdrop, dropWhile_append_all (fun x hx =>
      by simpa using alpha_ne (hd x (List.mem_append_right c hx)) (by decide)),
    dropWhile_append_all (fun x hx => by simpa using (attrsOk_chars ha x hx).2.1),
    List.dropWhile_cons, if_neg (by simp)]
  rfl

end Docs

namespace Docs

theorem takeWhile_gtStop (rest : List Char) :
    List.takeWhile (fun x => decide (x ≠ '>')) ('>' :: rest) = [] := by
  rw [List.takeWhile_cons, if_neg (by simp)]

theorem getLast?_append_attrs {d2 a : List Char}
    (hd2 : ∀ x ∈ d2, x.isAlpha = true) (ha : attrsOk a = true) :
    ((d2 ++ a).getLast? = some '/') ↔ (a.getLast? = some '/') := by
  rcases attrsOk_cases ha with ha2 | ⟨r, ha2⟩ | ha2
  · subst ha2
    rw [List.append_nil]
    constructor
    · intro hg
      exact absurd rfl (alpha_ne (hd2 '/' (mem_of_getLast? hg)) (by decide))
    · intro hg
      exact Option.noConfusion hg
  · subst ha2
    rw [List.getLast?_append_of_ne_nil d2 (by simp)]
  · subst ha2
    rw [List.getLast?_append_of_ne_nil d2 (by simp)]

/-- With `c` a prefix of the tag name, the self-closing matcher at an open
token matches exactly when the attribute block ends in `/`. -/
theorem trySelfClose_at_opn {c d2 a : List Char} (rest : List Char)
    (hc : ∀ x ∈ c, x.isAlpha = true) (hd : ∀ x ∈ c ++ d2, x.isAlpha = true)
    (ha : attrsOk a = true) :
    trySelfClose c (itemStr (.opn (c ++ d2) a) ++ rest) =
      if a.getLast? = some '/' then some rest else none := by
  have hpre : ('<' :: c).isPrefixOf (itemStr (.opn (c ++ d2) a) ++ rest) = true :=
    List.isPrefixOf_iff_prefix.mpr
      ((prefix_opn_iff rest hc ha).mpr (List.prefix_append c d2))
  rw [opn_norm] at hpre ⊢
  unfold trySelfClose
  rw [hpre]
  simp only [if_true, List.drop_succ_cons]
  have hdrop : (c ++ d2 ++ (a ++ '>' :: rest)).drop c.length =
      d2 ++ (a ++ '>' :: rest) := by
    rw [List.append_assoc]
    exact List.drop_left c _
  have htw : (d2 ++ (a ++ '>' :: rest)).takeWhile (fun x => decide (x ≠ '>')) =
      d2 ++ a := by
    rw [takeWhile_append_all (fun x hx =>
        by simpa using alpha_ne (hd x (List.mem_append_right c hx)) (by decide)),
      takeWhile_append_all (fun x hx => by
        simpa using (attrsOk_chars ha x hx).2.1),
      takeWhile_gtStop, List.append_nil]
  have hdrop2 : (d2 ++ (a ++ '>' :: rest)).drop (d2 ++ a).length = '>' :: rest := by
    rw [← List.append_assoc]
    exact List.drop_left (d2 ++ a) _
  simp only [hdrop, htw, hdrop2]
  rw [if_congr (getLast?_append_attrs
    (fun x hx => hd x (List.mem_append_right c hx)) ha) rfl rfl]

theorem drop_cls_token (d rest : List Char) :
    (itemStr (.cls d) ++ rest).drop (d.length + 3) = rest := by
  rw [cls_norm, show d.length + 3 = d.length + 1 + 1 + 1 from rfl,
    List.drop_succ_cons, List.drop_succ_cons,
    show d.length + 1 = d.length + 1 from rfl]
  rw [List.drop_append 1, List.drop_succ_cons, List.drop_zero]

/-- The bare-close matcher at a closing token matches exactly when the names
agree. -/
theorem tryClose_at_cls {c d : List Char} (rest : List Char)
    (hc : ∀ x ∈ c, x.isAlpha = true) (hd : ∀ x ∈ d, x.isAlpha = true) :
    tryClose c (itemStr (.cls d) ++ rest) = if c = d then some rest else none := by
  unfold tryClose
  by_cases hcd : c = d
  · subst hcd
    have hpre : ('<' :: '/' :: (c ++ ['>'])).isPrefixOf
        (itemStr (.cls c) ++ rest) = true :=
      List.isPrefixOf_iff_prefix.mpr ((prefix_cls_iff rest hc hd).mpr rfl)
    rw [hpre]
    simp only [if_true, if_pos rfl]
    rw [show c.length + 3 = c.length + 3 from rfl]
    exact congrArg some (drop_cls_token c rest)
  · have hpre : ('<' :: '/' :: (c ++ ['>'])).isPrefixOf
        (itemStr (.cls d) ++ rest) = false :=
      Bool.eq_false_iff.mpr (fun h =>
        hcd ((prefix_cls_iff rest hc hd).mp (List.isPrefixOf_iff_prefix.mp h)))
    rw [hpre]
    simp [hcd]

theorem tag_prefix_at_opn_false {c d a : List Char} (rest : List Char)
    (hc : ∀ x ∈ c, x.isAlpha = true) (ha : attrsOk a = true) (hncd : ¬ c <+: d) :
    ('<' :: c).isPrefixOf (itemStr (.opn d a) ++ rest) = false :=
  Bool.eq_false_iff.mpr (fun h =>
    hncd ((prefix_opn_iff rest hc ha).mp (List.isPrefixOf_iff_prefix.mp h)))

theorem tag_prefix_at_cls_false {c : List Char} (hcne : c ≠ [])
    (hca : ∀ x ∈ c, x.isAlpha = true) (d rest : List Char) :
    ('<' :: c).isPrefixOf (itemStr (.cls d) ++ rest) = false := by
  rw [cls_norm]
  cases c with
  | nil => exact absurd rfl hcne
  | cons c0 c2 =>
    refine Bool.eq_false_iff.mpr (fun h => ?_)
    have h2 := List.isPrefixOf_iff_prefix.mp h
    rcases List.cons_prefix_cons.mp h2 with ⟨_, h3⟩
    rcases List.cons_prefix_cons.mp h3 with ⟨he, _⟩
    exact alpha_ne (hca c0 (List.mem_cons_self _ _)) (by decide) he

theorem tryPaired_at_opn_none {c d a : List Char} (rest : List Char)
    (hc : ∀ x ∈ c, x.isAlpha = true) (ha : attrsOk a = true) (hncd : ¬ c <+: d) :
    tryPaired c (itemStr (.opn d a) ++ rest) = none := by
  unfold tryPaired
  rw [tag_prefix_at_opn_false rest hc ha hncd]
  simp

theorem tryOpen_at_opn_none {c d a : List Char} (rest : List Char)
    (hc : ∀ x ∈ c, x.isAlpha = true) (ha : attrsOk a = true) (hncd : ¬ c <+: d) :
    tryOpen c (itemStr (.opn d a) ++ rest) = none := by
  unfold tryOpen
  rw [tag_prefix_at_opn_false rest hc ha hncd]
  simp

theorem trySelfClose_at_opn_none {c d a : List Char} (rest : List Char)
    (hc : ∀ x ∈ c, x.isAlpha = true) (ha : attrsOk a = true) (hncd : ¬ c <+: d) :
    trySelfClose c (itemStr (.opn d a) ++ rest) = none := by
  unfold trySelfClose
  rw [tag_prefix_at_opn_false rest hc ha hncd]
  simp

theorem tryPaired_at_cls_none {c : List Char} (hcne : c ≠ [])
    (hca : ∀ x ∈ c, x.isAlpha = true) (d rest : List Char) :
    tryPaired c (itemStr (.cls d) ++ rest) = none := by
  unfold tryPaired
  rw [tag_prefix_at_cls_false hcne hca d rest]
  simp

theorem tryOpen_at_cls_none {c : List Char} (hcne : c ≠ [])
    (hca : ∀ x ∈ c, x.isAlpha = true) (d rest : List Char) :
    tryOpen c (itemStr (.cls d) ++ rest) = none := by
  unfold tryOpen
  rw [tag_prefix_at_cls_false hcne hca d rest]
  simp

theorem trySelfClose_at_cls_none {c : List Char} (hcne : c ≠ [])
    (hca : ∀ x ∈ c, x.isAlpha = true) (d rest : List Char) :
    trySelfClose c (itemStr (.cls d) ++ rest) = none := by
  unfold trySelfClose
  rw [tag_prefix_at_cls_false hcne hca d rest]
  simp

theorem tryClose_at_opn_none {c d a : List Char} (rest : List Char)
    (hdne : d ≠ []) (hda : ∀ x ∈ d, x.isAlpha = true) :
    tryClose c (itemStr (.opn d a) ++ rest) = none := by
  unfold tryClose
  rw [opn_norm]
  cases d with
  | nil => exact absurd rfl hdne
  | cons d0 d2 =>
    have hpre : ('<' :: '/' :: (c ++ ['>'])).isPrefixOf
        ('<' :: (d0 :: d2 ++ (a ++ '>' :: rest))) = false := by
      refine Bool.eq_false_iff.mpr (fun h => ?_)
      have h2 := List.isPrefixOf_iff_prefix.mp h
      rcases List.cons_prefix_cons.mp h2 with ⟨_, h3⟩
      rw [List.cons_append] at h3
      rcases List.cons_prefix_cons.mp h3 with ⟨he, _⟩
      exact alpha_ne (hda d0 (List.mem_cons_self _ _)) (by decide) he.symm
    rw [hpre]
    simp

end Docs

namespace Docs

/-! ### Searching for `</c>` across the flattened item list -/

theorem dropThroughInfix_cons (pat : List Char) (c : Char) (t : List Char) :
    dropThroughInfix pat (c :: t) =
      if pat.isPrefixOf (c :: t) then some ((c :: t).drop pat.length)
      else dropThroughInfix pat t := rfl

theorem splitAtCls_txt (c s : List Char) (t : List MItem) :
    splitAtCls c (.txt s :: t) = splitAtCls c t := rfl

theorem splitAtCls_opn (c d a : List Char) (t : List MItem) :
    splitAtCls c (.opn d a :: t) = splitAtCls c t := rfl

theorem splitAtCls_cls (c d : List Char) (t : List MItem) :
    splitAtCls c (.cls d :: t) = if d = c then some t else splitAtCls c t := rfl

theorem dropThrough_skip {pat : List Char} :
    ∀ (blk rest : List Char),
      (∀ k, k < blk.length → pat.isPrefixOf (blk.drop k ++ rest) = false) →
      dropThroughInfix pat (blk ++ rest) = dropThroughInfix pat rest := by
  intro blk
  induction blk with
  | nil => intro rest _; rfl
  | cons b0 blk2 ih =>
    intro rest h
    have h0 := h 0 (by simp)
    simp only [List.drop_zero, List.cons_append] at h0
    rw [List.cons_append, dropThroughInfix_cons, h0]
    simp only [Bool.false_eq_true, if_false]
    exact ih rest (fun k hk => by
      have h2 := h (k + 1) (by simp only [List.length_cons]; omega)
      simpa [List.drop_succ_cons] using h2)

theorem splitAtCls_length {c : List Char} :
    ∀ {items post : List MItem}, splitAtCls c items = some post →
      post.length < items.length := by
  intro items
  induction items with
  | nil => intro post h; exact Option.noConfusion h
  | cons i t ih =>
    intro post h
    cases i with
    | txt s =>
      rw [splitAtCls_txt] at h
      exact Nat.lt_trans (ih h) (by simp)
    | opn d a =>
      rw [splitAtCls_opn] at h
      exact Nat.lt_trans (ih h) (by simp)
    | cls d =>
      rw [splitAtCls_cls] at h
      split at h
      · cases h; simp
      · exact Nat.lt_trans (ih h) (by simp)

theorem splitAtCls_wf {c : List Char} :
    ∀ {items post : List MItem}, wfItems items = true →
      splitAtCls c items = some post → wfItems post = true := by
  intro items
  induction items with
  | nil => intro post _ h; exact Option.noConfusion h
  | cons i t ih =>
    intro post hwf h
    rcases wf_cons.mp hwf with ⟨_, hwt⟩
    cases i with
    | txt s => exact ih hwt (by rwa [splitAtCls_txt] at h)
    | opn d a => exact ih hwt (by rwa [splitAtCls_opn] at h)
    | cls d =>
      rw [splitAtCls_cls] at h
      split at h
      · cases h; exact hwt
      · exact ih hwt h

/-- The literal `</c>` occurs in a flattened well-formed item list exactly at
the closing tokens named `c`; searching for it skips everything up to the
first such token. -/
theorem dropThrough_flatten {c : List Char} (_hcne : c ≠ [])
    (hca : ∀ x ∈ c, x.isAlpha = true) :
    ∀ items, wfItems items = true →
      dropThroughInfix ('<' :: '/' :: (c ++ ['>'])) (flattenItems items) =
        (splitAtCls c items).map flattenItems := by
  intro items
  induction items with
  | nil =>
    intro _
    simp [flattenItems, splitAtCls, dropThroughInfix, List.isPrefixOf]
  | cons i t ih =>
    intro hwf
    rcases wf_cons.mp hwf with ⟨hi, hwt⟩
    show dropThroughInfix _ (itemStr i ++ flattenItems t) = _
    cases i with
    | txt s =>
      rw [dropThrough_skip (itemStr (.txt s)) _ (fun k hk => ?_), ih hwt]
      · rfl
      · cases hdrop : (itemStr (.txt s)).drop k with
        | nil =>
          exfalso
          have hle := congrArg List.length hdrop
          simp only [List.length_drop, List.length_nil, itemStr] at hle
          simp only [itemStr] at hk
          omega
        | cons b0 b2 =>
          exact consPrefix_false
            ((txt_facts hi b0 (List.drop_subset k s (hdrop ▸ List.mem_cons_self _ _))).1)
    | opn d a =>
      rcases opn_facts hi with ⟨_, ha, hdne, hda⟩
      rw [dropThrough_skip (itemStr (.opn d a)) _ (fun k hk => ?_), ih hwt]
      · rfl
      · cases k with
        | zero =>
          simp only [List.drop_zero]
          rw [opn_norm]
          cases d with
          | nil => exact absurd rfl hdne
          | cons d0 d2 =>
            refine Bool.eq_false_iff.mpr (fun h => ?_)
            have h2 := List.isPrefixOf_iff_prefix.mp h
            rcases List.cons_prefix_cons.mp h2 with ⟨_, h3⟩
            rcases List.cons_prefix_cons.mp h3 with ⟨he, _⟩
            exact alpha_ne (hda d0 (List.mem_cons_self _ _)) (by decide) he.symm
        | succ k2 =>
          have hdk : (itemStr (.opn d a)).drop (k2 + 1) = (d ++ a ++ ['>']).drop k2 :=
            rfl
          rw [hdk]
          cases hdrop : (d ++ a ++ ['>']).drop k2 with
          | nil =>
            exfalso
            have hle := congrArg List.length hdrop
            simp [itemStr] at hle hk
            omega
          | cons b0 b2 =>
            exact consPrefix_false
              (opn_tail_chars hda ha b0
                (List.drop_subset k2 _ (hdrop ▸ List.mem_cons_self _ _)))
    | cls d =>
      rcases cls_facts hi with ⟨_, hdne, hda⟩
      by_cases hdc : c = d
      · subst hdc
        have hpre : ('<' :: '/' :: (c ++ ['>'])).isPrefixOf
            (itemStr (.cls c) ++ flattenItems t) = true :=
          List.isPrefixOf_iff_prefix.mpr ((prefix_cls_iff _ hca hda).mpr rfl)
        rw [cls_norm] at hpre
        rw [cls_norm, dropThroughInfix_cons, hpre]
        simp only [if_true]
        have hlen : ('<' :: '/' :: (c ++ ['>'])).length = c.length + 3 := by
          simp [List.length_append]
        rw [hlen]
        have hdrop3 := drop_cls_token c (flattenItems t)
        rw [cls_norm] at hdrop3
        rw [hdrop3, splitAtCls_cls, if_pos rfl]
        rfl
      · rw [dropThrough_skip (itemStr (.cls d)) _ (fun k hk => ?_), ih hwt]
        · rw [splitAtCls_cls, if_neg (fun he => hdc he.symm)]
        · cases k with
          | zero =>
            simp only [List.drop_zero]
            exact Bool.eq_false_iff.mpr (fun h =>
              hdc ((prefix_cls_iff _ hca hda).mp (List.isPrefixOf_iff_prefix.mp h)))
          | succ k2 =>
            have hdk : (itemStr (.cls d)).drop (k2 + 1) = ('/' :: (d ++ ['>'])).drop k2 :=
              rfl
            rw [hdk]
            cases hdrop : ('/' :: (d ++ ['>'])).drop k2 with
            | nil =>
              exfalso
              have hle := congrArg List.length hdrop
              simp [itemStr] at hle hk
              omega
            | cons b0 b2 =>
              exact consPrefix_false
                (cls_tail_chars hda b0
                  (List.drop_subset k2 _ (hdrop ▸ List.mem_cons_self _ _)))

end Docs

namespace Docs

/-! ### Per-pass simulation over item lists -/

theorem subst_some (m : List Char → Option (List Char))
    (hm : ∀ l r, m l = some r → r.length < l.length) {l r : List Char}
    (h : m l = some r) : subst m l = subst m r := by
  cases l with
  | nil => exact absurd (hm _ _ h) (by simp)
  | cons c t => exact subst_cons_match m hm h

theorem wf_filter {items : List MItem} (p : MItem → Bool)
    (hwf : wfItems items = true) : wfItems (items.filter p) = true := by
  refine List.all_eq_true.mpr (fun i hi => ?_)
  exact List.all_eq_true.mp hwf i (List.mem_filter.mp hi).1

theorem flatten_cons (i : MItem) (t : List MItem) :
    flattenItems (i :: t) = itemStr i ++ flattenItems t := rfl

/-- The paired-tag pass `re.sub(f'<{c}[^>]*>.*?</{c}>', '', -)` maps the
flattened form of a well-formed item list to the flattened form of another
well-formed item list. -/
theorem subst_paired_flatten {c : List Char} (hcne : c ≠ [])
    (hca : ∀ x ∈ c, x.isAlpha = true) :
    ∀ (N : Nat) (items : List MItem), items.length ≤ N → wfItems items = true →
      ∃ items2, subst (tryPaired c) (flattenItems items) = flattenItems items2 ∧
        wfItems items2 = true
  | 0, items, hN, _ => by
    have hnil : items = [] := List.eq_nil_of_length_eq_zero (Nat.le_zero.mp hN)
    subst hnil
    exact ⟨[], rfl, rfl⟩
  | N + 1, [], _, _ => ⟨[], rfl, rfl⟩
  | N + 1, i :: t, hN, hwf => by
    rcases wf_cons.mp hwf with ⟨hi, hwt⟩
    have htN : t.length ≤ N := by
      simp only [List.length_cons] at hN
      omega
    cases i with
    | txt s =>
      obtain ⟨items2, heq, hwf2⟩ := subst_paired_flatten hcne hca N t htN hwt
      refine ⟨.txt s :: items2, ?_, wf_cons.mpr ⟨hi, hwf2⟩⟩
      show subst (tryPaired c) (s ++ flattenItems t) = s ++ flattenItems items2
      rw [subst_copy_txt (tryPaired c) (fun l r h => tryPaired_shrink c h) '<'
        (fun a2 t2 ha2 => tryPaired_none c ha2) s (flattenItems t)
        (fun x hx => (txt_facts hi x hx).1), heq]
    | opn d a =>
      rcases opn_facts hi with ⟨_, ha, hdne, hda⟩
      by_cases hcd : c <+: d
      · obtain ⟨d2, rfl⟩ := hcd
        have heval : tryPaired c (flattenItems (.opn (c ++ d2) a :: t)) =
            (splitAtCls c t).map flattenItems := by
          rw [flatten_cons, tryPaired_at_opn (flattenItems t) hca hda ha,
            dropThrough_flatten hcne hca t hwt]
        cases hsplit : splitAtCls c t with
        | some post =>
          rw [hsplit] at heval
          have hpl : post.length ≤ N := by
            have := splitAtCls_length hsplit
            omega
          obtain ⟨items2, heq, hwf2⟩ := subst_paired_flatten hcne hca N post hpl
            (splitAtCls_wf hwt hsplit)
          refine ⟨items2, ?_, hwf2⟩
          rw [subst_some (tryPaired c) (fun l r h => tryPaired_shrink c h) heval,
            heq]
        | none =>
          rw [hsplit] at heval
          obtain ⟨items2, heq, hwf2⟩ := subst_paired_flatten hcne hca N t htN hwt
          refine ⟨.opn (c ++ d2) a :: items2, ?_, wf_cons.mpr ⟨hi, hwf2⟩⟩
          show subst (tryPaired c) (('<' :: ((c ++ d2) ++ a ++ ['>'])) ++ flattenItems t) =
            ('<' :: ((c ++ d2) ++ a ++ ['>'])) ++ flattenItems items2
          rw [subst_copy_tok (tryPaired c)
            (fun l r h => tryPaired_shrink c h)
            (fun a2 t2 ha2 => tryPaired_none c ha2)
            '<' ((c ++ d2) ++ a ++ ['>']) (flattenItems t)
            (opn_tail_chars hda ha) heval, heq]
      · obtain ⟨items2, heq, hwf2⟩ := subst_paired_flatten hcne hca N t htN hwt
        refine ⟨.opn d a :: items2, ?_, wf_cons.mpr ⟨hi, hwf2⟩⟩
        show subst (tryPaired c) (('<' :: (d ++ a ++ ['>'])) ++ flattenItems t) =
          ('<' :: (d ++ a ++ ['>'])) ++ flattenItems items2
        rw [subst_copy_tok (tryPaired c)
          (fun l r h => tryPaired_shrink c h)
          (fun a2 t2 ha2 => tryPaired_none c ha2)
          '<' (d ++ a ++ ['>']) (flattenItems t)
          (opn_tail_chars hda ha)
          (tryPaired_at_opn_none (flattenItems t) hca ha hcd), heq]
    | cls d =>
      rcases cls_facts hi with ⟨_, hdne, hda⟩
      obtain ⟨items2, heq, hwf2⟩ := subst_paired_flatten hcne hca N t htN hwt
      refine ⟨.cls d :: items2, ?_, wf_cons.mpr ⟨hi, hwf2⟩⟩
      show subst (tryPaired c) (('<' :: ('/' :: (d ++ ['>']))) ++ flattenItems t) =
        ('<' :: ('/' :: (d ++ ['>']))) ++ flattenItems items2
      rw [subst_copy_tok (tryPaired c)
        (fun l r h => tryPaired_shrink c h)
        (fun a2 t2 ha2 => tryPaired_none c ha2)
        '<' ('/' :: (d ++ ['>'])) (flattenItems t)
        (cls_tail_chars hda)
        (tryPaired_at_cls_none hcne hca d (flattenItems t)), heq]

theorem subst_paired_fold :
    ∀ (cs : List (List Char)),
      (∀ c ∈ cs, c ≠ [] ∧ ∀ x ∈ c, x.isAlpha = true) →
      ∀ items : List MItem, wfItems items = true →
        ∃ items2,
          cs.foldl (fun acc c => subst (tryPaired c) acc) (flattenItems items) =
            flattenItems items2 ∧ wfItems items2 = true
  | [], _, items, hwf => ⟨items, rfl, hwf⟩
  | c :: cs, hcs, items, hwf => by
    obtain ⟨items1, heq1, hwf1⟩ :=
      subst_paired_flatten (hcs c (List.mem_cons_self _ _)).1
        (hcs c (List.mem_cons_self _ _)).2 items.length items (Nat.le_refl _) hwf
    obtain ⟨items2, heq2, hwf2⟩ :=
      subst_paired_fold cs (fun c2 hc2 => hcs c2 (List.mem_cons_of_mem c hc2))
        items1 hwf1
    exact ⟨items2, by rw [List.foldl_cons, heq1, heq2], hwf2⟩

end Docs

namespace Docs

theorem isPrefixOf_self (l : List Char) : l.isPrefixOf l = true :=
  List.isPrefixOf_iff_prefix.mpr (List.prefix_refl l)

/-- The self-closing pass deletes exactly the self-closing tokens whose name
extends `c`, keeping everything else. -/
theorem subst_self_flatten {c : List Char} (hcne : c ≠ [])
    (hca : ∀ x ∈ c, x.isAlpha = true) :
    ∀ items : List MItem, wfItems items = true →
      subst (trySelfClose c) (flattenItems items) =
        flattenItems (items.filter (selfKeep c)) := by
  intro items
  induction items with
  | nil => intro _; rfl
  | cons i t ih =>
    intro hwf
    rcases wf_cons.mp hwf with ⟨hi, hwt⟩
    cases i with
    | txt s =>
      have hfc : (MItem.txt s :: t).filter (selfKeep c) =
          .txt s :: t.filter (selfKeep c) := by
        rw [List.filter_cons]
        simp [selfKeep]
      rw [hfc]
      show subst (trySelfClose c) (s ++ flattenItems t) =
        s ++ flattenItems (t.filter (selfKeep c))
      rw [subst_copy_txt (trySelfClose c) (fun l r h => trySelfClose_shrink c h) '<'
        (fun a2 t2 ha2 => trySelfClose_none c ha2) s (flattenItems t)
        (fun x hx => (txt_facts hi x hx).1), ih hwt]
    | opn d a =>
      rcases opn_facts hi with ⟨_, ha, hdne, hda⟩
      by_cases hcd : c <+: d
      · obtain ⟨d2, rfl⟩ := hcd
        by_cases hlast : a.getLast? = some '/'
        · have heval : trySelfClose c (flattenItems (.opn (c ++ d2) a :: t)) =
              some (flattenItems t) := by
            rw [flatten_cons, trySelfClose_at_opn (flattenItems t) hca hda ha,
              if_pos hlast]
          have hkeep : selfKeep c (.opn (c ++ d2) a) = false := by
            simp [selfKeep, isPrefixOf_self, hlast,
              List.isPrefixOf_iff_prefix.mpr (List.prefix_append c d2)]
          rw [subst_some (trySelfClose c) (fun l r h => trySelfClose_shrink c h)
            heval, ih hwt, List.filter_cons, hkeep]
          simp
        · have hkeep : selfKeep c (.opn (c ++ d2) a) = true := by
            simp [selfKeep, hlast]
          have hfc : (MItem.opn (c ++ d2) a :: t).filter (selfKeep c) =
              .opn (c ++ d2) a :: t.filter (selfKeep c) := by
            rw [List.filter_cons, hkeep]
            simp
          rw [hfc]
          show subst (trySelfClose c)
              (('<' :: ((c ++ d2) ++ a ++ ['>'])) ++ flattenItems t) =
            ('<' :: ((c ++ d2) ++ a ++ ['>'])) ++ flattenItems (t.filter (selfKeep c))
          rw [subst_copy_tok (trySelfClose c) (fun l r h => trySelfClose_shrink c h)
            (fun a2 t2 ha2 => trySelfClose_none c ha2)
            '<' ((c ++ d2) ++ a ++ ['>']) (flattenItems t)
            (opn_tail_chars hda ha)
            (by
              have heval : trySelfClose c (flattenItems (.opn (c ++ d2) a :: t)) =
                  none := by
                rw [flatten_cons, trySelfClose_at_opn (flattenItems t) hca hda ha,
                  if_neg hlast]
              exact heval), ih hwt]
      · have hkeep : selfKeep c (.opn d a) = true := by
          have : c.isPrefixOf d = false :=
            Bool.eq_false_iff.mpr (fun h => hcd (List.isPrefixOf_iff_prefix.mp h))
          simp [selfKeep, this]
        have hfc : (MItem.opn d a :: t).filter (selfKeep c) =
            .opn d a :: t.filter (selfKeep c) := by
          rw [List.filter_cons, hkeep]
          simp
        rw [hfc]
        show subst (trySelfClose c) (('<' :: (d ++ a ++ ['>'])) ++ flattenItems t) =
          ('<' :: (d ++ a ++ ['>'])) ++ flattenItems (t.filter (selfKeep c))
        rw [subst_copy_tok (trySelfClose c) (fun l r h => trySelfClose_shrink c h)
          (fun a2 t2 ha2 => trySelfClose_none c ha2)
          '<' (d ++ a ++ ['>']) (flattenItems t)
          (opn_tail_chars hda ha)
          (trySelfClose_at_opn_none (flattenItems t) hca ha hcd), ih hwt]
    | cls d =>
      rcases cls_facts hi with ⟨_, hdne, hda⟩
      have hfc : (MItem.cls d :: t).filter (selfKeep c) =
          .cls d :: t.filter (selfKeep c) := by
        rw [List.filter_cons]
        simp [selfKeep]
      rw [hfc]
      show subst (trySelfClose c) (('<' :: ('/' :: (d ++ ['>']))) ++ flattenItems t) =
        ('<' :: ('/' :: (d ++ ['>']))) ++ flattenItems (t.filter (selfKeep c))
      rw [subst_copy_tok (trySelfClose c) (fun l r h => trySelfClose_shrink c h)
        (fun a2 t2 ha2 => trySelfClose_none c ha2)
        '<' ('/' :: (d ++ ['>'])) (flattenItems t)
        (cls_tail_chars hda)
        (trySelfClose_at_cls_none hcne hca d (flattenItems t)), ih hwt]

/-- The bare-open pass deletes exactly the open tokens whose name extends `c`. -/
theorem subst_open_flatten {c : List Char} (hcne : c ≠ [])
    (hca : ∀ x ∈ c, x.isAlpha = true) :
    ∀ items : List MItem, wfItems items = true →
      subst (tryOpen c) (flattenItems items) =
        flattenItems (items.filter (openKeep c)) := by
  intro items
  induction items with
  | nil => intro _; rfl
  | cons i t ih =>
    intro hwf
    rcases wf_cons.mp hwf with ⟨hi, hwt⟩
    cases i with
    | txt s =>
      have hfc : (MItem.txt s :: t).filter (openKeep c) =
          .txt s :: t.filter (openKeep c) := by
        rw [List.filter_cons]
        simp [openKeep]
      rw [hfc]
      show subst (tryOpen c) (s ++ flattenItems t) =
        s ++ flattenItems (t.filter (openKeep c))
      rw [subst_copy_txt (tryOpen c) (fun l r h => tryOpen_shrink c h) '<'
        (fun a2 t2 ha2 => tryOpen_none c ha2) s (flattenItems t)
        (fun x hx => (txt_facts hi x hx).1), ih hwt]
    | opn d a =>
      rcases opn_facts hi with ⟨_, ha, hdne, hda⟩
      by_cases hcd : c <+: d
      · obtain ⟨d2, rfl⟩ := hcd
        have heval : tryOpen c (flattenItems (.opn (c ++ d2) a :: t)) =
            some (flattenItems t) := by
          rw [flatten_cons]
          exact tryOpen_at_opn (flattenItems t) hca hda ha
        have hkeep : openKeep c (.opn (c ++ d2) a) = false := by
          simp [openKeep, List.isPrefixOf_iff_prefix.mpr (List.prefix_append c d2)]
        rw [subst_some (tryOpen c) (fun l r h => tryOpen_shrink c h) heval,
          ih hwt, List.filter_cons, hkeep]
        simp
      · have hkeep : openKeep c (.opn d a) = true := by
          have hpf : c.isPrefixOf d = false :=
            Bool.eq_false_iff.mpr (fun h => hcd (List.isPrefixOf_iff_prefix.mp h))
          simp [openKeep, hpf]
        have hfc : (MItem.opn d a :: t).filter (openKeep c) =
            .opn d a :: t.filter (openKeep c) := by
          rw [List.filter_cons, hkeep]
          simp
        rw [hfc]
        show subst (tryOpen c) (('<' :: (d ++ a ++ ['>'])) ++ flattenItems t) =
          ('<' :: (d ++ a ++ ['>'])) ++ flattenItems (t.filter (openKeep c))
        rw [subst_copy_tok (tryOpen c) (fun l r h => tryOpen_shrink c h)
          (fun a2 t2 ha2 => tryOpen_none c ha2)
          '<' (d ++ a ++ ['>']) (flattenItems t)
          (opn_tail_chars hda ha)
          (tryOpen_at_opn_none (flattenItems t) hca ha hcd), ih hwt]
    | cls d =>
      rcases cls_facts hi with ⟨_, hdne, hda⟩
      have hfc : (MItem.cls d :: t).filter (openKeep c) =
          .cls d :: t.filter (openKeep c) := by
        rw [List.filter_cons]
        simp [openKeep]
      rw [hfc]
      show subst (tryOpen c) (('<' :: ('/' :: (d ++ ['>']))) ++ flattenItems t) =
        ('<' :: ('/' :: (d ++ ['>']))) ++ flattenItems (t.filter (openKeep c))
      rw [subst_copy_tok (tryOpen c) (fun l r h => tryOpen_shrink c h)
        (fun a2 t2 ha2 => tryOpen_none c ha2)
        '<' ('/' :: (d ++ ['>'])) (flattenItems t)
        (cls_tail_chars hda)
        (tryOpen_at_cls_none hcne hca d (flattenItems t)), ih hwt]

/-- The bare-close pass deletes exactly the closing tokens named `c`. -/
theorem subst_close_flatten {c : List Char} (_hcne : c ≠ [])
    (hca : ∀ x ∈ c, x.isAlpha = true) :
    ∀ items : List MItem, wfItems items = true →
      subst (tryClose c) (flattenItems items) =
        flattenItems (items.filter (closeKeep c)) := by
  intro items
  induction items with
  | nil => intro _; rfl
  | cons i t ih =>
    intro hwf
    rcases wf_cons.mp hwf with ⟨hi, hwt⟩
    cases i with
    | txt s =>
      have hfc : (MItem.txt s :: t).filter (closeKeep c) =
          .txt s :: t.filter (closeKeep c) := by
        rw [List.filter_cons]
        simp [closeKeep]
      rw [hfc]
      show subst (tryClose c) (s ++ flattenItems t) =
        s ++ flattenItems (t.filter (closeKeep c))
      rw [subst_copy_txt (tryClose c) (fun l r h => tryClose_shrink c h) '<'
        (fun a2 t2 ha2 => tryClose_none c ha2) s (flattenItems t)
        (fun x hx => (txt_facts hi x hx).1), ih hwt]
    | opn d a =>
      rcases opn_facts hi with ⟨_, ha, hdne, hda⟩
      have hfc : (MItem.opn d a :: t).filter (closeKeep c) =
          .opn d a :: t.filter (closeKeep c) := by
        rw [List.filter_cons]
        simp [closeKeep]
      rw [hfc]
      show subst (tryClose c) (('<' :: (d ++ a ++ ['>'])) ++ flattenItems t) =
        ('<' :: (d ++ a ++ ['>'])) ++ flattenItems (t.filter (closeKeep c))
      rw [subst_copy_tok (tryClose c) (fun l r h => tryClose_shrink c h)
        (fun a2 t2 ha2 => tryClose_none c ha2)
        '<' (d ++ a ++ ['>']) (flattenItems t)
        (opn_tail_chars hda ha)
        (tryClose_at_opn_none (flattenItems t) hdne hda), ih hwt]
    | cls d =>
      rcases cls_facts hi with ⟨_, hdne, hda⟩
      by_cases hcd : c = d
      · subst hcd
        have heval : tryClose c (flattenItems (.cls c :: t)) =
            some (flattenItems t) := by
          rw [flatten_cons, tryClose_at_cls (flattenItems t) hca hda, if_pos rfl]
        have hkeep : closeKeep c (.cls c) = false := by
          simp [closeKeep]
        rw [subst_some (tryClose c) (fun l r h => tryClose_shrink c h) heval,
          ih hwt, List.filter_cons, hkeep]
        simp
      · have hkeep : closeKeep c (.cls d) = true := by
          simp [closeKeep]
          exact fun he => hcd he.symm
        have hfc : (MItem.cls d :: t).filter (closeKeep c) =
            .cls d :: t.filter (closeKeep c) := by
          rw [List.filter_cons, hkeep]
          simp
        rw [hfc]
        show subst (tryClose c) (('<' :: ('/' :: (d ++ ['>']))) ++ flattenItems t) =
          ('<' :: ('/' :: (d ++ ['>']))) ++ flattenItems (t.filter (closeKeep c))
        rw [subst_copy_tok (tryClose c) (fun l r h => tryClose_shrink c h)
          (fun a2 t2 ha2 => tryClose_none c ha2)
          '<' ('/' :: (d ++ ['>'])) (flattenItems t)
          (cls_tail_chars hda)
          (by
            rw [show ('<' :: ('/' :: (d ++ ['>']))) ++ flattenItems t =
              itemStr (.cls d) ++ flattenItems t from rfl,
              tryClose_at_cls (flattenItems t) hca hda, if_neg hcd]), ih hwt]

end Docs

namespace Docs

theorem subst_self_fold :
    ∀ (cs : List (List Char)),
      (∀ c ∈ cs, c ≠ [] ∧ ∀ x ∈ c, x.isAlpha = true) →
      ∀ items : List MItem, wfItems items = true →
        ∃ items2,
          cs.foldl (fun acc c => subst (trySelfClose c) acc) (flattenItems items) =
            flattenItems items2 ∧ wfItems items2 = true
  | [], _, items, hwf => ⟨items, rfl, hwf⟩
  | c :: cs, hcs, items, hwf => by
    have hc := hcs c (List.mem_cons_self _ _)
    obtain ⟨items2, heq2, hwf2⟩ :=
      subst_self_fold cs (fun c2 hc2 => hcs c2 (List.mem_cons_of_mem c hc2))
        (items.filter (selfKeep c)) (wf_filter _ hwf)
    refine ⟨items2, ?_, hwf2⟩
    rw [List.foldl_cons, subst_self_flatten hc.1 hc.2 items hwf, heq2]

theorem subst_bare_fold :
    ∀ (cs : List (List Char)),
      (∀ c ∈ cs, c ≠ [] ∧ ∀ x ∈ c, x.isAlpha = true) →
      ∀ items : List MItem, wfItems items = true →
        cs.foldl (fun acc c => subst (tryClose c) (subst (tryOpen c) acc))
            (flattenItems items) =
          flattenItems
            (cs.foldl (fun its c => (its.filter (openKeep c)).filter (closeKeep c))
              items)
  | [], _, _, _ => rfl
  | c :: cs, hcs, items, hwf => by
    have hc := hcs c (List.mem_cons_self _ _)
    rw [List.foldl_cons, List.foldl_cons,
      subst_open_flatten hc.1 hc.2 items hwf,
      subst_close_flatten hc.1 hc.2 (items.filter (openKeep c)) (wf_filter _ hwf),
      subst_bare_fold cs (fun c2 hc2 => hcs c2 (List.mem_cons_of_mem c hc2))
        ((items.filter (openKeep c)).filter (closeKeep c))
        (wf_filter _ (wf_filter _ hwf))]

theorem wf_bare_fold :
    ∀ (cs : List (List Char)) (items : List MItem), wfItems items = true →
      wfItems
        (cs.foldl (fun its c => (its.filter (openKeep c)).filter (closeKeep c))
          items) = true
  | [], _, hwf => hwf
  | c :: cs, items, hwf => by
    rw [List.foldl_cons]
    exact wf_bare_fold cs _ (wf_filter _ (wf_filter _ hwf))

theorem mem_bare_fold :
    ∀ (cs : List (List Char)) (its : List MItem) (i : MItem),
      i ∈ cs.foldl (fun its c => (its.filter (openKeep c)).filter (closeKeep c)) its →
      i ∈ its ∧ ∀ c ∈ cs, openKeep c i = true ∧ closeKeep c i = true
  | [], _, _, h => ⟨h, fun c hc => absurd hc (List.not_mem_nil c)⟩
  | c :: cs, its, i, h => by
    rw [List.foldl_cons] at h
    obtain ⟨hmem, hall⟩ := mem_bare_fold cs _ i h
    have h1 := List.mem_filter.mp hmem
    have h2 := List.mem_filter.mp h1.1
    refine ⟨h2.1, fun c2 hc2 => ?_⟩
    rcases List.mem_cons.mp hc2 with hc2 | hc2
    · subst hc2; exact ⟨h2.2, h1.2⟩
    · exact hall c2 hc2

/-- After the bare-tag cleanup has run for every component, only text items
remain. -/
theorem all_txt_after_bare (items : List MItem) (hwf : wfItems items = true) :
    ∀ i ∈ componentsL.foldl
        (fun its c => (its.filter (openKeep c)).filter (closeKeep c)) items,
      ∃ s, i = .txt s := by
  intro i hi
  obtain ⟨hmem, hall⟩ := mem_bare_fold componentsL items i hi
  have hok := List.all_eq_true.mp hwf i hmem
  cases i with
  | txt s => exact ⟨s, rfl⟩
  | opn d a =>
    exfalso
    have hd : d ∈ componentsL := (opn_facts hok).1
    have := (hall d hd).1
    simp [openKeep, isPrefixOf_self] at this
  | cls d =>
    exfalso
    have hd : d ∈ componentsL := (cls_facts hok).1
    have := (hall d hd).2
    simp [closeKeep] at this

theorem flatten_no_brace {items : List MItem} (hwf : wfItems items = true) :
    ∀ x ∈ flattenItems items, x ≠ '\x7b' := by
  induction items with
  | nil => intro x hx; exact absurd hx (List.not_mem_nil x)
  | cons i t ih =>
    rcases wf_cons.mp hwf with ⟨hi, hwt⟩
    intro x hx
    rcases List.mem_append.mp hx with hx2 | hx2
    · cases i with
      | txt s => exact (txt_facts hi x hx2).2
      | opn d a =>
        rcases opn_facts hi with ⟨_, ha, _, hda⟩
        simp only [itemStr] at hx2
        rcases List.mem_cons.mp hx2 with hx3 | hx3
        · rw [hx3]; decide
        · rcases List.mem_append.mp hx3 with hx4 | hx4
          · rcases List.mem_append.mp hx4 with hx5 | hx5
            · exact alpha_ne (hda x hx5) (by decide)
            · exact (attrsOk_chars ha x hx5).2.2
          · simp only [List.mem_singleton] at hx4
            rw [hx4]; decide
      | cls d =>
        rcases cls_facts hi with ⟨_, _, hda⟩
        simp only [itemStr] at hx2
        rcases List.mem_cons.mp hx2 with hx3 | hx3
        · rw [hx3]; decide
        · rcases List.mem_cons.mp hx3 with hx4 | hx4
          · rw [hx4]; decide
          · rcases List.mem_append.mp hx4 with hx5 | hx5
            · exact alpha_ne (hda x hx5) (by decide)
            · simp only [List.mem_singleton] at hx5
              rw [hx5]; decide
    · exact ih hwt x hx2

theorem flatten_txt_chars {items : List MItem} (hwf : wfItems items = true)
    (htxt : ∀ i ∈ items, ∃ s, i = .txt s) :
    ∀ x ∈ flattenItems items, x ≠ '<' ∧ x ≠ '\x7b' := by
  induction items with
  | nil => intro x hx; exact absurd hx (List.not_mem_nil x)
  | cons i t ih =>
    rcases wf_cons.mp hwf with ⟨hi, hwt⟩
    intro x hx
    obtain ⟨s, rfl⟩ := htxt i (List.mem_cons_self _ _)
    rcases List.mem_append.mp hx with hx2 | hx2
    · exact txt_facts hi x hx2
    · exact ih hwt (fun j hj => htxt j (List.mem_cons_of_mem _ hj)) x hx2

end Docs

namespace Docs

/-! ### The whitespace pipeline is the identity on its own output -/

theorem noWsNl_get :
    ∀ {l : List Char}, noWsNl l → ∀ {i : Nat} {a b : Char},
      l.get? i = some a → l.get? (i + 1) = some b → isPySpace a = true →
      b ≠ '\n' := by
  intro l
  induction l with
  | nil =>
    intro _ i a b ha _ _
    exact absurd ha (by simp)
  | cons c t ih =>
    intro h i a b ha hb haw
    cases i with
    | zero =>
      have hac : c = a := by simpa using ha
      subst hac
      rw [List.get?_cons_succ] at hb
      cases t with
      | nil => exact absurd hb (by simp)
      | cons b2 t2 =>
        have hb2 : b2 = b := by simpa using hb
        subst hb2
        have hr := (List.chain'_cons'.mp h).1 b2 rfl
        intro hbnl
        exact hr ⟨haw, hbnl⟩
    | succ j =>
      rw [List.get?_cons_succ] at ha hb
      exact ih h.tail ha hb haw

theorem mem_getLast? : ∀ {l : List Char} {x : Char}, l.getLast? = some x → x ∈ l
  | [], x, h => absurd h (by simp)
  | [c], x, h => by
    have : c = x := by simpa using h
    rw [this]
    exact List.mem_singleton.mpr rfl
  | c :: b :: t, x, h => by
    rw [List.getLast?_cons_cons] at h
    exact List.mem_cons_of_mem c (mem_getLast? h)

theorem head_dropWhile_false {p : Char → Bool} :
    ∀ {l : List Char} {x : Char}, (l.dropWhile p).head? = some x → p x = false
  | [], x, h => absurd h (by simp)
  | c :: t, x, h => by
    by_cases hc : p c = true
    · rw [List.dropWhile_cons, if_pos hc] at h
      exact head_dropWhile_false h
    · rw [List.dropWhile_cons, if_neg hc] at h
      have hcx : c = x := by simpa using h
      subst hcx
      cases hb : p c with
      | false => rfl
      | true => exact absurd hb hc

theorem dropWhile_eq_self_of {p : Char → Bool} {l : List Char}
    (h : ∀ x, l.head? = some x → p x = false) : l.dropWhile p = l := by
  cases l with
  | nil => rfl
  | cons c t =>
    have hc := h c rfl
    simp [List.dropWhile_cons, hc]

/-- If a whitespace character heads the list and the list satisfies the
no-whitespace-before-newline invariant, the whitespace run it starts contains
no further newline. -/
theorem noWsNl_nl_in_tail {c : Char} {t : List Char} (hc : isPySpace c = true)
    (h : noWsNl (c :: t)) : '\n' ∉ t.takeWhile isPySpace := by
  intro hmem
  rcases List.mem_iff_get?.mp hmem with ⟨i, hi⟩
  have hilen : i < (t.takeWhile isPySpace).length := by
    rcases List.get?_eq_some.mp hi with ⟨hl2, _⟩
    exact hl2
  have hsplit : t = t.takeWhile isPySpace ++ t.dropWhile isPySpace :=
    (List.takeWhile_append_dropWhile _ _).symm
  have hti : t.get? i = some '\n' := by
    conv_lhs => rw [hsplit]
    rw [List.get?_append hilen]
    exact hi
  cases i with
  | zero =>
    exact noWsNl_get h (show (c :: t).get? 0 = some c from rfl)
      (by rw [List.get?_cons_succ]; exact hti) hc rfl
  | succ j =>
    have hjlen : j < (t.takeWhile isPySpace).length := by omega
    rcases hex : (t.takeWhile isPySpace).get? j with _ | a
    · rw [List.get?_eq_none] at hex
      omega
    · have hja : t.get? j = some a := by
        conv_lhs => rw [hsplit]
        rw [List.get?_append hjlen]
        exact hex
      have haws : isPySpace a = true :=
        List.mem_takeWhile_imp (List.get?_mem hex)
      exact noWsNl_get h (by rw [List.get?_cons_succ]; exact hja)
        (by rw [List.get?_cons_succ]; exact hti) haws rfl

theorem countNl_run_le {c : Char} {t : List Char} (hc : isPySpace c = true)
    (h : noWsNl (c :: t)) : countNl ((c :: t).takeWhile isPySpace) ≤ 1 := by
  have htw : (c :: t).takeWhile isPySpace = c :: t.takeWhile isPySpace := by
    simp [List.takeWhile_cons, hc]
  have h0 : countNl (t.takeWhile isPySpace) = 0 := by
    by_contra hne
    rcases List.countP_pos.mp (Nat.pos_of_ne_zero hne) with ⟨a, ha, hp⟩
    have hanl : a = '\n' := of_decide_eq_true hp
    exact noWsNl_nl_in_tail hc h (hanl ▸ ha)
  rw [htw]
  unfold countNl at h0 ⊢
  rw [List.countP_cons, h0]
  cases hd : decide (c = '\n') <;> simp [hd]

theorem wsAGo_cons_ne {n : Nat} {c : Char} {t : List Char} (hc : c ≠ '\n') :
    wsAGo (n + 1) (c :: t) = c :: wsAGo n t := by
  simp [wsAGo, hc]

theorem wsAGo_cons_nl_small {n : Nat} {t : List Char}
    (hcount : ¬ 3 ≤ countNl (('\n' :: t).takeWhile isPySpace)) :
    wsAGo (n + 1) ('\n' :: t) = '\n' :: wsAGo n t := by
  simp [wsAGo, hcount]

theorem wsAGo_cons_nl_big {n : Nat} {t : List Char}
    (hcount : 3 ≤ countNl (('\n' :: t).takeWhile isPySpace)) :
    wsAGo (n + 1) ('\n' :: t) =
      '\n' :: '\n' ::
        wsAGo n (('\n' :: t).drop (lastNlIdx (('\n' :: t).takeWhile isPySpace) + 1)) := by
  simp [wsAGo, hcount]

theorem wsAGo_id : ∀ (n : Nat) (l : List Char), noWsNl l → wsAGo n l = l
  | 0, _, _ => rfl
  | _ + 1, [], _ => rfl
  | n + 1, c :: t, h => by
    by_cases hc : c = '\n'
    · subst hc
      have hcount := countNl_run_le (show isPySpace '\n' = true by decide) h
      rw [wsAGo_cons_nl_small (by omega)]
      exact congrArg _ (wsAGo_id n t h.tail)
    · rw [wsAGo_cons_ne hc]
      exact congrArg _ (wsAGo_id n t h.tail)

theorem wsA_id {l : List Char} (h : noWsNl l) : wsA l = l :=
  wsAGo_id l.length l h

end Docs

namespace Docs

theorem wsBFind_none_of {l : List Char} :
    ∀ j : Nat, (∀ m, 1 ≤ m → m ≤ j → m ≠ l.length ∧ l.get? m ≠ some '\n') →
      wsBFind l j = none
  | 0, _ => rfl
  | j + 1, h => by
    have hm := h (j + 1) (by omega) (Nat.le_refl _)
    unfold wsBFind
    rw [if_neg (by
      intro hor
      rcases hor with hor | hor
      · exact hm.1 hor
      · exact hm.2 hor)]
    exact wsBFind_none_of j (fun m h1 h2 => h m h1 (by omega))

theorem wsBGo_cons_false {n : Nat} {c : Char} {t : List Char} :
    wsBGo (n + 1) false (c :: t) = c :: wsBGo n (decide (c = '\n')) t := by
  simp [wsBGo]

theorem wsBGo_cons_nonws {n : Nat} {aS : Bool} {c : Char} {t : List Char}
    (h : isPySpace c = false) :
    wsBGo (n + 1) aS (c :: t) = c :: wsBGo n (decide (c = '\n')) t := by
  simp [wsBGo, h]

theorem wsBGo_cons_ws_none {n : Nat} {c : Char} {t : List Char}
    (h : isPySpace c = true)
    (hf : wsBFind (c :: t) ((c :: t).takeWhile isPySpace).length = none) :
    wsBGo (n + 1) true (c :: t) = c :: wsBGo n (decide (c = '\n')) t := by
  rw [show (c :: t).takeWhile isPySpace = c :: t.takeWhile isPySpace from by
    simp [List.takeWhile_cons, h]] at hf
  simp only [List.length_cons] at hf
  simp [wsBGo, h, hf]

theorem wsBGo_cons_ws_some {n j : Nat} {c : Char} {t : List Char}
    (h : isPySpace c = true)
    (hf : wsBFind (c :: t) ((c :: t).takeWhile isPySpace).length = some j) :
    wsBGo (n + 1) true (c :: t) =
      wsBGo n (decide ((c :: t).get? (j - 1) = some '\n')) ((c :: t).drop j) := by
  rw [show (c :: t).takeWhile isPySpace = c :: t.takeWhile isPySpace from by
    simp [List.takeWhile_cons, h]] at hf
  simp only [List.length_cons] at hf
  simp [wsBGo, h, hf]

theorem wsBGo_id : ∀ (n : Nat) (aS : Bool) (l : List Char), noWsNl l →
    (∀ x, l.getLast? = some x → isPySpace x = false) → wsBGo n aS l = l
  | 0, _, _, _, _ => rfl
  | _ + 1, _, [], _, _ => rfl
  | n + 1, aS, c :: t, h, hlast => by
    have htail : ∀ x, t.getLast? = some x → isPySpace x = false := by
      intro x hx
      apply hlast
      cases t with
      | nil => exact absurd hx (by simp)
      | cons b t2 => rw [List.getLast?_cons_cons]; exact hx
    have hrec : wsBGo n (decide (c = '\n')) t = t :=
      wsBGo_id n _ t h.tail htail
    by_cases hws : isPySpace c = true
    · have hrun : (c :: t).takeWhile isPySpace = c :: t.takeWhile isPySpace := by
        simp [List.takeWhile_cons, hws]
      have hnone : wsBFind (c :: t) ((c :: t).takeWhile isPySpace).length = none := by
        apply wsBFind_none_of
        intro m h1 h2
        rw [hrun, List.length_cons] at h2
        constructor
        · intro hmlen
          rw [List.length_cons] at hmlen
          have hle : (t.takeWhile isPySpace).length ≤ t.length :=
            (List.takeWhile_prefix _).length_le
          have hteq : t.takeWhile isPySpace = t :=
            (List.takeWhile_prefix _).eq_of_length (by omega)
          cases t with
          | nil =>
            have hcl := hlast c rfl
            rw [hws] at hcl
            exact Bool.noConfusion hcl
          | cons b t2 =>
            rcases hex : (b :: t2).getLast? with _ | x
            · rw [List.getLast?_eq_none_iff] at hex
              exact List.noConfusion hex
            · have hxmem : x ∈ b :: t2 := mem_getLast? hex
              have hxws : isPySpace x = true := by
                rw [← hteq] at hxmem
                exact List.mem_takeWhile_imp hxmem
              have := htail x hex
              rw [hxws] at this
              exact Bool.noConfusion this
        · intro hget
          obtain ⟨j, rfl⟩ : ∃ j, m = j + 1 := ⟨m - 1, by omega⟩
          rw [List.get?_cons_succ] at hget
          have hsplit : t = t.takeWhile isPySpace ++ t.dropWhile isPySpace :=
            (List.takeWhile_append_dropWhile _ _).symm
          rcases Nat.lt_or_ge j (t.takeWhile isPySpace).length with hj | hj
          · have : (t.takeWhile isPySpace).get? j = some '\n' := by
              rw [← List.get?_append hj, ← hsplit]
              exact hget
            exact noWsNl_nl_in_tail hws h (List.get?_mem this)
          · have hjeq : j = (t.takeWhile isPySpace).length := by omega
            have hhead : (t.dropWhile isPySpace).head? = some '\n' := by
              rw [show (t.dropWhile isPySpace).head? = (t.dropWhile isPySpace).get? 0
                  from by cases t.dropWhile isPySpace <;> rfl]
              rw [show (0 : Nat) = j - (t.takeWhile isPySpace).length by omega,
                ← List.get?_append_right (by omega), ← hsplit]
              exact hget
            have := head_dropWhile_false hhead
            exact Bool.noConfusion this
      cases aS with
      | false => rw [wsBGo_cons_false, hrec]
      | true => rw [wsBGo_cons_ws_none hws hnone, hrec]
    · have hws2 : isPySpace c = false := by
        cases hb : isPySpace c with
        | false => rfl
        | true => exact absurd hb hws
      rw [wsBGo_cons_nonws hws2, hrec]

theorem wsB_id {l : List Char} (h : noWsNl l)
    (hlast : ∀ x, l.getLast? = some x → isPySpace x = false) : wsB l = l :=
  wsBGo_id l.length true l h hlast

theorem wsCGo_id : ∀ (n : Nat) (l : List Char), noWsNl l → wsCGo n l = l
  | 0, _, _ => rfl
  | _ + 1, [], _ => rfl
  | n + 1, c :: t, h => by
    by_cases hws : isPySpace c = true
    · have hnone : wsCFind ((c :: t).takeWhile isPySpace)
          (((c :: t).takeWhile isPySpace).length - 1) = none := by
        cases hf : wsCFind ((c :: t).takeWhile isPySpace)
            (((c :: t).takeWhile isPySpace).length - 1) with
        | none => rfl
        | some k =>
          exfalso
          obtain ⟨hknl, hk1, _, _⟩ := wsCFind_some hf
          have hrun : (c :: t).takeWhile isPySpace = c :: t.takeWhile isPySpace := by
            simp [List.takeWhile_cons, hws]
          rw [hrun] at hknl
          obtain ⟨j, rfl⟩ : ∃ j, k = j + 1 := ⟨k - 1, by omega⟩
          rw [List.get?_cons_succ] at hknl
          exact noWsNl_nl_in_tail hws h (List.get?_mem hknl)
      rw [wsCGo_cons_ws_none hws hnone]
      exact congrArg _ (wsCGo_id n t h.tail)
    · have hws2 : isPySpace c = false := by
        cases hb : isPySpace c with
        | false => rfl
        | true => exact absurd hb hws
      rw [wsCGo_cons_nonws hws2]
      exact congrArg _ (wsCGo_id n t h.tail)

theorem wsC_id {l : List Char} (h : noWsNl l) : wsC l = l :=
  wsCGo_id l.length l h

theorem stripEnds_head {l : List Char} :
    ∀ x, (stripEnds l).head? = some x → isPySpace x = false := by
  intro x hx
  unfold stripEnds at hx
  rw [List.head?_reverse] at hx
  have hne : ((l.dropWhile isPySpace).reverse).dropWhile isPySpace ≠ [] := by
    intro hemp
    rw [hemp] at hx
    exact Option.noConfusion hx
  obtain ⟨pre, hpre⟩ := List.dropWhile_suffix
    (l := (l.dropWhile isPySpace).reverse) isPySpace
  have hlast : ((l.dropWhile isPySpace).reverse).getLast? = some x := by
    rw [← hpre, List.getLast?_append_of_ne_nil _ hne]
    exact hx
  rw [List.getLast?_reverse] at hlast
  exact head_dropWhile_false hlast

theorem stripEnds_last {l : List Char} :
    ∀ x, (stripEnds l).getLast? = some x → isPySpace x = false := by
  intro x hx
  unfold stripEnds at hx
  rw [List.getLast?_reverse] at hx
  exact head_dropWhile_false hx

theorem stripEnds_id {l : List Char}
    (hh : ∀ x, l.head? = some x → isPySpace x = false)
    (hl : ∀ x, l.getLast? = some x → isPySpace x = false) : stripEnds l = l := by
  unfold stripEnds
  rw [dropWhile_eq_self_of hh,
    dropWhile_eq_self_of (fun x hx => hl x (by rw [← List.head?_reverse]; exact hx)),
    List.reverse_reverse]

/-- On text already satisfying the invariants produced by the whitespace
pipeline (no whitespace before a newline, non-whitespace first and last
characters), the pipeline is the identity. -/
theorem wsPipeline_id {l : List Char} (h : noWsNl l)
    (hh : ∀ x, l.head? = some x → isPySpace x = false)
    (hl : ∀ x, l.getLast? = some x → isPySpace x = false) :
    stripEnds (wsNormalize l) = l := by
  unfold wsNormalize
  rw [wsA_id h, wsB_id h hl, wsC_id h, stripEnds_id hh hl]

end Docs

namespace Docs

/-! ### The whitespace pipeline introduces no character other than newlines -/

theorem mem_wsAGo :
    ∀ (n : Nat) (l : List Char) {x : Char}, x ∈ wsAGo n l → x ∈ l ∨ x = '\n'
  | 0, _, _, h => Or.inl h
  | _ + 1, [], x, h => absurd h (List.not_mem_nil x)
  | n + 1, c :: t, x, h => by
    by_cases hc : c = '\n'
    · subst hc
      by_cases hcount : 3 ≤ countNl (('\n' :: t).takeWhile isPySpace)
      · rw [wsAGo_cons_nl_big hcount] at h
        rcases List.mem_cons.mp h with h1 | h2
        · exact Or.inr h1
        rcases List.mem_cons.mp h2 with h1 | h3
        · exact Or.inr h1
        rcases mem_wsAGo n _ h3 with h4 | h4
        · exact Or.inl (List.drop_subset _ _ h4)
        · exact Or.inr h4
      · rw [wsAGo_cons_nl_small hcount] at h
        rcases List.mem_cons.mp h with h1 | h2
        · exact Or.inr h1
        rcases mem_wsAGo n t h2 with h3 | h3
        · exact Or.inl (List.mem_cons_of_mem _ h3)
        · exact Or.inr h3
    · rw [wsAGo_cons_ne hc] at h
      rcases List.mem_cons.mp h with h1 | h2
      · exact Or.inl (h1 ▸ List.mem_cons_self _ _)
      rcases mem_wsAGo n t h2 with h3 | h3
      · exact Or.inl (List.mem_cons_of_mem _ h3)
      · exact Or.inr h3

theorem mem_wsBGo :
    ∀ (n : Nat) (aS : Bool) (l : List Char) {x : Char}, x ∈ wsBGo n aS l → x ∈ l
  | 0, _, _, _, h => h
  | _ + 1, _, [], x, h => absurd h (List.not_mem_nil x)
  | n + 1, aS, c :: t, x, h => by
    by_cases hws : isPySpace c = true
    · cases aS with
      | false =>
        rw [wsBGo_cons_false] at h
        rcases List.mem_cons.mp h with h1 | h2
        · exact h1 ▸ List.mem_cons_self _ _
        · exact List.mem_cons_of_mem _ (mem_wsBGo n _ t h2)
      | true =>
        cases hf : wsBFind (c :: t) ((c :: t).takeWhile isPySpace).length with
        | none =>
          rw [wsBGo_cons_ws_none hws hf] at h
          rcases List.mem_cons.mp h with h1 | h2
          · exact h1 ▸ List.mem_cons_self _ _
          · exact List.mem_cons_of_mem _ (mem_wsBGo n _ t h2)
        | some j =>
          rw [wsBGo_cons_ws_some hws hf] at h
          exact List.drop_subset _ _ (mem_wsBGo n _ _ h)
    · have hws2 : isPySpace c = false := by
        cases hb : isPySpace c with
        | false => rfl
        | true => exact absurd hb hws
      rw [wsBGo_cons_nonws hws2] at h
      rcases List.mem_cons.mp h with h1 | h2
      · exact h1 ▸ List.mem_cons_self _ _
      · exact List.mem_cons_of_mem _ (mem_wsBGo n _ t h2)

theorem mem_wsCGo :
    ∀ (n : Nat) (l : List Char) {x : Char}, x ∈ wsCGo n l → x ∈ l ∨ x = '\n'
  | 0, _, _, h => Or.inl h
  | _ + 1, [], x, h => absurd h (List.not_mem_nil x)
  | n + 1, c :: t, x, h => by
    by_cases hws : isPySpace c = true
    · cases hf : wsCFind ((c :: t).takeWhile isPySpace)
          (((c :: t).takeWhile isPySpace).length - 1) with
      | none =>
        rw [wsCGo_cons_ws_none hws hf] at h
        rcases List.mem_cons.mp h with h1 | h2
        · exact Or.inl (h1 ▸ List.mem_cons_self _ _)
        rcases mem_wsCGo n t h2 with h3 | h3
        · exact Or.inl (List.mem_cons_of_mem _ h3)
        · exact Or.inr h3
      | some k =>
        rw [wsCGo_cons_ws_some hws hf] at h
        rcases List.mem_cons.mp h with h1 | h2
        · exact Or.inr h1
        rcases mem_wsCGo n _ h2 with h3 | h3
        · exact Or.inl (List.drop_subset _ _ h3)
        · exact Or.inr h3
    · have hws2 : isPySpace c = false := by
        cases hb : isPySpace c with
        | false => rfl
        | true => exact absurd hb hws
      rw [wsCGo_cons_nonws hws2] at h
      rcases List.mem_cons.mp h with h1 | h2
      · exact Or.inl (h1 ▸ List.mem_cons_self _ _)
      rcases mem_wsCGo n t h2 with h3 | h3
      · exact Or.inl (List.mem_cons_of_mem _ h3)
      · exact Or.inr h3

theorem mem_stripEnds {l : List Char} {x : Char} (h : x ∈ stripEnds l) : x ∈ l := by
  unfold stripEnds at h
  rw [List.mem_reverse] at h
  have h2 := (List.dropWhile_suffix isPySpace).subset h
  rw [List.mem_reverse] at h2
  exact (List.dropWhile_suffix isPySpace).subset h2

theorem mem_wsPipeline {l : List Char} {x : Char}
    (h : x ∈ stripEnds (wsNormalize l)) : x ∈ l ∨ x = '\n' := by
  have h1 := mem_stripEnds h
  unfold wsNormalize wsC at h1
  rcases mem_wsCGo _ _ h1 with h2 | h2
  · unfold wsB at h2
    have h3 := mem_wsBGo _ _ _ h2
    unfold wsA at h3
    exact mem_wsAGo _ _ h3
  · exact Or.inr h2

/-- The first run of the stripper on a well-formed item document: every markup
pass is accounted for, and what reaches the whitespace pipeline is the
flattening of a well-formed, text-only item list. -/
theorem first_run (items : List MItem) (hwf : wfItems items = true) :
    ∃ items4 : List MItem, wfItems items4 = true ∧
      (∀ i ∈ items4, ∃ s, i = MItem.txt s) ∧
      processMdxL (flattenItems items) =
        stripEnds (wsNormalize (flattenItems items4)) := by
  have hnb : '\x7b' ∉ flattenItems items :=
    fun hm => flatten_no_brace hwf '\x7b' hm rfl
  obtain ⟨items2, heq2, hwf2⟩ := subst_paired_fold componentsL compsL_facts items hwf
  obtain ⟨items3, heq3, hwf3⟩ := subst_self_fold componentsL compsL_facts items2 hwf2
  refine ⟨componentsL.foldl
      (fun its c => (its.filter (openKeep c)).filter (closeKeep c)) items3,
    wf_bare_fold componentsL items3 hwf3, all_txt_after_bare items3 hwf3, ?_⟩
  unfold processMdxL
  rw [stripComments_id hnb]
  unfold stripPaired stripSelfClosing stripBare
  rw [heq2, heq3, subst_bare_fold componentsL compsL_facts items3 hwf3]

end Docs

/-- C8: the Markup Stripper is idempotent on documents containing only
vocabulary tags (no same-tag nesting), modelled as any interleaving of
markup-free text with well-formed open, self-closing and closing tags of
vocabulary components: for every such document x,
process_mdx_content (process_mdx_content x) = process_mdx_content x.
The first run reduces the document to markup-free text whose whitespace
satisfies the pipeline invariants, on which the second run is the identity. -/
theorem C8_idempotent (items : List MItem) (hwf : wfItems items = true) :
    process_mdx_content (process_mdx_content (mkDoc items)) =
      process_mdx_content (mkDoc items) := by
  obtain ⟨items4, hwf4, htxt, heq⟩ := first_run items hwf
  have hchars := flatten_txt_chars hwf4 htxt
  have hz : process_mdx_content (mkDoc items) =
      ⟨stripEnds (wsNormalize (flattenItems items4))⟩ := by
    unfold process_mdx_content mkDoc
    exact congrArg String.mk heq
  rw [hz]
  have hlt : '<' ∉ stripEnds (wsNormalize (flattenItems items4)) := by
    intro hm
    rcases mem_wsPipeline hm with h2 | h2
    · exact (hchars '<' h2).1 rfl
    · exact absurd h2 (by decide)
  have hbr : '\x7b' ∉ stripEnds (wsNormalize (flattenItems items4)) := by
    intro hm
    rcases mem_wsPipeline hm with h2 | h2
    · exact (hchars '\x7b' h2).2 rfl
    · exact absurd h2 (by decide)
  have hnm := process_mdx_no_markup
    (show '<' ∉ (String.mk (stripEnds (wsNormalize (flattenItems items4)))).data
      from hlt)
    (show '\x7b' ∉ (String.mk (stripEnds (wsNormalize (flattenItems items4)))).data
      from hbr)
  rw [hnm]
  show String.mk (stripEnds (wsNormalize (stripEnds (wsNormalize (flattenItems items4))))) =
    String.mk (stripEnds (wsNormalize (flattenItems items4)))
  exact congrArg String.mk
    (wsPipeline_id (wsNormalize_noWsNl _) stripEnds_head stripEnds_last)

/-- Concrete instance of C8: a document with text around a well-formed
paired `<Frame ...>...</Frame>` element satisfies the well-formedness
hypothesis, and the stripper is idempotent on it. -/
theorem C8_idempotent_witness :
    wfItems [MItem.txt "hi ".data, MItem.opn "Frame".data " a=b".data,
        MItem.txt "mid".data, MItem.cls "Frame".data,
        MItem.txt " ok".data] = true ∧
      process_mdx_content (process_mdx_content (mkDoc
        [MItem.txt "hi ".data, MItem.opn "Frame".data " a=b".data,
         MItem.txt "mid".data, MItem.cls "Frame".data,
         MItem.txt " ok".data])) =
        process_mdx_content (mkDoc
          [MItem.txt "hi ".data, MItem.opn "Frame".data " a=b".data,
           MItem.txt "mid".data, MItem.cls "Frame".data,
           MItem.txt " ok".data]) :=
  ⟨by decide,
    C8_idempotent
      [MItem.txt "hi ".data, MItem.opn "Frame".data " a=b".data,
       MItem.txt "mid".data, MItem.cls "Frame".data,
       MItem.txt " ok".data] (by decide)⟩
